import Mathlib

/-!
# tui-pomodoro: the timer state machine of `main.go`

A shallow embedding of `src/main.go` (package `main` of stevedsun/tui-pomodoro).

* `time.Duration` is an `int64` count of nanoseconds: durations are `Int`s and every
  arithmetic result is reduced by `wrap64` (Go integers wrap on overflow).
* `Duration.Minutes` and `Duration.Seconds` return `float64`.  A finite `float64` is
  modelled by the rational number it denotes, and every floating-point operation
  returns the exact result rounded to the nearest value with a 53-bit significand,
  ties to even (`f64round`).  All values that occur are `0` or have a magnitude between
  `1e-11` and `1e19`, so subnormals, infinities and NaN do not arise and the exponent
  range is left unbounded.
* The bubbletea runtime is the driver: it delivers messages to `Update` one at a time.
  `time.AfterFunc` timers live in the Go runtime; `World` holds the model the program
  points to together with the timers that are scheduled and have not fired.
* Rendering: `renderTimeline` is the sequence of pieces it writes, each piece a text with
  the lipgloss style applied to it kept as a tag; `plainText` drops the tags.
-/

namespace Pomodoro

/-! ## `time.Duration` -/

/-- The constant `time.Second`, in nanoseconds. -/
def Second : Int := 1000000000

/-- The constant `time.Minute`, in nanoseconds. -/
def Minute : Int := 60 * Second

/-- Two's-complement reduction of an integer to `int64`. -/
def wrap64 (x : Int) : Int := (x + 2 ^ 63) % 2 ^ 64 - 2 ^ 63

/-- The values of type `int64`. -/
def IsInt64 (x : Int) : Prop := -(2 ^ 63) ≤ x ∧ x < 2 ^ 63

instance (x : Int) : Decidable (IsInt64 x) := by
  unfold IsInt64; exact inferInstance

/-! ## `float64` -/

/-- Nearest integer to `y`, ties to the even one. -/
def roundHalfEven (y : ℚ) : Int :=
  if y - ⌊y⌋ < 1 / 2 then ⌊y⌋
  else if 1 / 2 < y - ⌊y⌋ then ⌊y⌋ + 1
  else if ⌊y⌋ % 2 = 0 then ⌊y⌋ else ⌊y⌋ + 1

/-- The `float64` nearest to the rational `x` (round to nearest, ties to even, 53-bit
significand): with `2 ^ e ≤ |x| < 2 ^ (e + 1)` the result is the multiple of
`2 ^ (e - 52)` nearest to `x`. -/
def f64round (x : ℚ) : ℚ :=
  if x = 0 then 0
  else (roundHalfEven (x / 2 ^ (Int.log 2 |x| - 52)) : ℚ) * 2 ^ (Int.log 2 |x| - 52)

/-- Conversion `float64(n)` of an integer. -/
def f64ofInt (n : Int) : ℚ := f64round n

/-- Conversion of a `float64` to an integer type: the fraction is discarded
(truncation towards zero). -/
def f64toInt (x : ℚ) : Int := if 0 ≤ x then ⌊x⌋ else ⌈x⌉

/-- Library method `func (d Duration) Minutes() float64`:
`min := d / Minute; nsec := d % Minute; return float64(min) + float64(nsec)/(60*1e9)`. -/
def Minutes (d : Int) : ℚ :=
  f64round (f64ofInt (Int.tdiv d Minute) + f64round (f64ofInt (Int.tmod d Minute) / 60000000000))

/-- Library method `func (d Duration) Seconds() float64`:
`sec := d / Second; nsec := d % Second; return float64(sec) + float64(nsec)/1e9`. -/
def Seconds (d : Int) : ℚ :=
  f64round (f64ofInt (Int.tdiv d Second) + f64round (f64ofInt (Int.tmod d Second) / 1000000000))

/-! ## The model -/

/-- The constant `defaultTime = 25 * time.Minute`. -/
def defaultTime : Int := 25 * Minute

/-- The constant `width = 50`. -/
def width : Int := 50

/-- The `type model struct`.  `timer` is the handle of the `*time.Timer` stored in the model
(`none` is `nil`); `ticker` is `true` when the `*time.Ticker` field is not `nil` (the
ticker's channel is never read, only its nil-ness is tested).  The `styles` and
`program` pointers do not take part in the state machine. -/
structure model where
  duration : Int
  remaining : Int
  timer : Option Nat
  ticker : Bool
  deriving DecidableEq, Repr

/-- The program state: the model the program points to, the handles of the
`time.AfterFunc` timers that are scheduled and have neither fired nor been stopped, and
the next unused handle. -/
structure World where
  m : model
  pending : List Nat
  fresh : Nat
  deriving DecidableEq, Repr

/-- A `tea.Msg` delivered to `Update`: a `tea.KeyMsg` with the value of `msg.String()`,
a `startTimerMsg`, a `tickMsg` (its time stamp is never read), or any other message. -/
inductive Msg where
  | key (s : String)
  | startTimer
  | tick
  | other
  deriving DecidableEq, Repr

/-- The `tea.Cmd` returned by `Update`: `nil`, `tea.Quit`, or the closure
`func() tea.Msg { return tickMsg(time.Now()) }`. -/
inductive Cmd where
  | none
  | quit
  | tick
  deriving DecidableEq, Repr

/-- The function `func initialModel() model`. -/
def initialModel : model :=
  { duration := defaultTime, remaining := defaultTime, timer := none, ticker := false }

/-- The state at process start: `initialModel()` and no timer scheduled. -/
def initialWorld : World := { m := initialModel, pending := [], fresh := 0 }

/-- The method `func (m *model) formatDuration()`:
`m.duration = time.Duration(m.duration.Minutes()/5) * 5 * time.Minute`. -/
def formatDuration (m : model) : model :=
  { m with duration := wrap64 (wrap64 (f64toInt (f64round (Minutes m.duration / 5)) * 5) * Minute) }

/-- The method `func (m *model) resetTimer()`: stop the timer stored in the model, if any, then
schedule a new one with `time.AfterFunc` and store it. -/
def resetTimer (w : World) : World :=
  { m := { w.m with timer := some w.fresh }
    pending := w.fresh :: (match w.m.timer with
      | some t => w.pending.erase t
      | none => w.pending)
    fresh := w.fresh + 1 }

/-- The method `func (m model) Init() tea.Cmd`: the receiver is a value, so `resetTimer` runs on a
copy of the model; the timer is scheduled but the program's model does not store it. -/
def Init (w : World) : World × Cmd :=
  ({ resetTimer w with m := w.m }, Cmd.none)

/-- Applies a function to the model of a world. -/
def World.onModel (w : World) (f : model → model) : World := { w with m := f w.m }

/-- The method `func (m *model) Update(msg tea.Msg) (tea.Model, tea.Cmd)`.  The `time.Sleep` of the
tick branch delays the return and changes no state. -/
def Update (w : World) : Msg → World × Cmd
  | Msg.key s =>
    if s = "ctrl+c" ∨ s = "q" then (w, Cmd.quit)
    else if s = "left" then
      if w.m.ticker then
        let w1 := w.onModel fun m => { m with ticker := false }
        let w2 := w1.onModel formatDuration
        let w3 := w2.onModel fun m => { m with remaining := m.duration }
        (resetTimer w3, Cmd.none)
      else if w.m.duration > 5 * Minute then
        let w1 := w.onModel formatDuration
        let w2 := w1.onModel fun m => { m with duration := wrap64 (m.duration - 5 * Minute) }
        let w3 := w2.onModel fun m => { m with remaining := m.duration }
        (resetTimer w3, Cmd.none)
      else
        let w1 := w.onModel fun m => { m with duration := 0 * Minute }
        let w2 := w1.onModel fun m => { m with remaining := m.duration }
        (resetTimer w2, Cmd.none)
    else if s = "right" then
      if w.m.ticker then
        let w1 := w.onModel fun m => { m with ticker := false }
        let w2 := w1.onModel formatDuration
        let w3 := w2.onModel fun m => { m with remaining := m.duration }
        (resetTimer w3, Cmd.none)
      else
        let w1 := w.onModel formatDuration
        let w2 := w1.onModel fun m => { m with duration := wrap64 (m.duration + 5 * Minute) }
        let w3 := w2.onModel fun m => { m with remaining := m.duration }
        (resetTimer w3, Cmd.none)
    else (w, Cmd.none)
  | Msg.startTimer =>
    if w.m.ticker = false then
      (w.onModel fun m => { m with ticker := true }, Cmd.tick)
    else (w, Cmd.none)
  | Msg.tick =>
    if w.m.remaining > 0 ∧ w.m.ticker = true then
      let w1 := w.onModel fun m => { m with remaining := wrap64 (m.remaining - Second) }
      let w2 := w1.onModel fun m => { m with duration := m.remaining }
      (w2, Cmd.tick)
    else if w.m.ticker = true then
      let w1 := w.onModel fun m => { m with ticker := false }
      let w2 := w1.onModel fun m => { m with remaining := m.duration }
      (w2, Cmd.none)
    else (w, Cmd.none)
  | Msg.other => (w, Cmd.none)

/-- The state after the driver has delivered the messages of a list, in order. -/
def run (w : World) (msgs : List Msg) : World :=
  msgs.foldl (fun w msg => (Update w msg).1) w

/-! ## Rendering of the time left -/

/-- Library call `fmt.Sprintf("%02d", n)`: the decimal digits of `n`, padded with zeros to two
characters; for a negative `n` the sign is one of the two characters. -/
def sprintf02d (n : Int) : String :=
  if n < 0 then "-" ++ Nat.repr n.natAbs
  else if n < 10 then "0" ++ Nat.repr n.toNat
  else Nat.repr n.toNat

/-- The function `func formatTime(d time.Duration) string`:
`fmt.Sprintf("%02d:%02d", int(d.Minutes()), int(d.Seconds())%60)`. -/
def formatTime (d : Int) : String :=
  sprintf02d (f64toInt (Minutes d)) ++ ":" ++ sprintf02d (Int.tmod (f64toInt (Seconds d)) 60)

/-- The key message of the decrease key (reference binding: left arrow). -/
def leftKey : Msg := Msg.key "left"

/-- The key message of the increase key (reference binding: right arrow). -/
def rightKey : Msg := Msg.key "right"

/-- The states the countdown passes through while at most `u` five-minute units have been
configured: `remaining` equals `duration`, which is a non-negative whole number of
seconds not above `u` units, and a multiple of five minutes while no countdown runs. -/
def Tame (u : Int) (w : World) : Prop :=
  w.m.remaining = w.m.duration ∧ 0 ≤ w.m.duration ∧ Second ∣ w.m.duration
    ∧ w.m.duration ≤ u * (5 * Minute) ∧ (w.m.ticker = false → 5 * Minute ∣ w.m.duration)

/-- A state in which no countdown runs and no timer is scheduled, with duration and
remaining time `d`. -/
def idleAt (d : Int) : World :=
  { m := { duration := d, remaining := d, timer := none, ticker := false }
    pending := []
    fresh := 0 }

/-- The number of increase-key messages in a list of messages. -/
def rightCount (msgs : List Msg) : Int := (msgs.count rightKey : Nat)

/-! ## Timers and program start -/

/-- The firing of the scheduled timer with handle `t`: the callback given to
`time.AfterFunc` runs `m.program.Send(startTimerMsg{})`, and the driver delivers the
message to `Update`.  A handle that is not pending does not fire. -/
def fire (w : World) (t : Nat) : World × Cmd :=
  if t ∈ w.pending then Update { w with pending := w.pending.erase t } Msg.startTimer
  else (w, Cmd.none)

/-- The state in which the driver starts to deliver messages: `main` builds
`initialModel()` and `p.Run()` calls `Init` once. -/
def startWorld : World := (Init initialWorld).1

/-! ## Rendering of the ruler -/

/-- The fields of `type Styles struct`. -/
inductive Style where
  | selected
  | normal
  | light
  | medium
  | dark
  | white
  | red
  deriving DecidableEq, Repr

/-- A piece of rendered output: `style.Render(text)` for a field `style` of `Styles`
(lipgloss is a pure function of the style and the text), or a string written as it is. -/
inductive Piece where
  | styled (st : Style) (text : String)
  | plain (text : String)
  deriving DecidableEq, Repr

/-- The text of a piece, with styling treated as the identity. -/
def Piece.text : Piece → String
  | Piece.styled _ text => text
  | Piece.plain text => text

/-- The characters of rendered output, with styling treated as the identity. -/
def plainText : List Piece → List Char
  | [] => []
  | p :: ps => p.text.toList ++ plainText ps

/-- The function `func abs(x int) int`. -/
def abs (x : Int) : Int := if x < 0 then -x else x

/-- The style chosen at column `i` in both loops of `renderTimeline`:
`distance := abs(i - width/2)`, then `selected` at distance 0, `light` up to 10,
`medium` up to 20, and `dark` otherwise. -/
def columnStyle (i : Int) : Style :=
  if abs (i - width / 2) = 0 then Style.selected
  else if abs (i - width / 2) ≤ 10 then Style.light
  else if abs (i - width / 2) ≤ 20 then Style.medium
  else Style.dark

/-- Library call `fmt.Sprintf("%d", n)`. -/
def sprintfD (n : Int) : String :=
  if n < 0 then "-" ++ Nat.repr n.natAbs else Nat.repr n.toNat

/-- Library call `fmt.Sprintf("%-5d", n)`: the decimal digits of `n` followed by blanks up
to five characters; a longer number is not cut. -/
def sprintfLeft5 (n : Int) : String :=
  sprintfD n ++ String.mk (List.replicate (5 - (sprintfD n).length) ' ')

/-- The first loop of `renderTimeline`, from column `i` on:
`for ; i < width; i++` writes the strong mark when `(minutes-width/2+i)%5 == 0` and the
weak mark otherwise.  The first argument bounds the number of iterations. -/
def rulerLoop (minutes : Int) : Nat → Int → List Piece
  | 0, _ => []
  | fuel + 1, i =>
    if i < width then
      Piece.styled (columnStyle i)
          (if Int.tmod (minutes - width / 2 + i) 5 = 0 then "|" else "'")
        :: rulerLoop minutes fuel (i + 1)
    else []

/-- The second loop of `renderTimeline`, from column `i` on: at a column whose minute
value `min` satisfies `min%5 == 0 && min >= 0` it writes the label and skips
`len(label) - 1` columns, at any other column it writes a blank.  The first argument
bounds the number of iterations. -/
def labelsLoop (minutes : Int) : Nat → Int → List Piece
  | 0, _ => []
  | fuel + 1, i =>
    if i < width then
      if Int.tmod (minutes - width / 2 + i) 5 = 0 ∧ minutes - width / 2 + i ≥ 0 then
        Piece.styled (columnStyle i) (sprintfLeft5 (minutes - width / 2 + i))
          :: labelsLoop minutes fuel
              (i + ((sprintfLeft5 (minutes - width / 2 + i)).utf8ByteSize - 1) + 1)
      else Piece.plain " " :: labelsLoop minutes fuel (i + 1)
    else []

/-- The ruler row for a whole-minute count: the output of the first loop. -/
def rulerRow (minutes : Int) : List Piece := rulerLoop minutes width.toNat 0

/-- The label row for a whole-minute count: the output of the second loop. -/
def labelRow (minutes : Int) : List Piece := labelsLoop minutes width.toNat 0

/-- The pointer row: `width/2` blanks and the pointer. -/
def arrowRow : List Piece :=
  List.replicate (width / 2).toNat (Piece.plain " ") ++ [Piece.styled Style.selected "▲"]

/-- The method `func (m model) renderTimeline() string`, as the sequence of pieces written:
with `minutes := int(m.duration.Minutes())`, the ruler row, a newline, the label row, a
newline, and the pointer row.  No overflow arises in `minutes-width/2+i`, the minute
count of an `int64` duration being below `2^28` in magnitude. -/
def renderTimeline (m : model) : List Piece :=
  rulerRow (f64toInt (Minutes m.duration)) ++ [Piece.plain "\n"]
    ++ labelRow (f64toInt (Minutes m.duration)) ++ [Piece.plain "\n"] ++ arrowRow

/-! ## Reading the rendered time back -/

/-- The value of a decimal digit. -/
def digitValue (c : Char) : Option Nat :=
  if '0' ≤ c ∧ c ≤ '9' then some (c.toNat - '0'.toNat) else none

/-- Reads decimal digits from the left, continuing from the value `acc`. -/
def readDigits : List Char → Nat → Option Nat
  | [], acc => some acc
  | c :: cs, acc =>
    match digitValue c with
    | some v => readDigits cs (acc * 10 + v)
    | none => none

/-- Reads a decimal integer: an optional minus sign and at least one digit. -/
def readInt : List Char → Option Int
  | [] => none
  | '-' :: [] => none
  | '-' :: cs => (readDigits cs 0).map fun n => -(n : Int)
  | cs => (readDigits cs 0).map fun n => (n : Int)

/-- Reads a rendering of the form `MM:SS`, split at its first colon, as the two decimal
integers `MM` and `SS`. -/
def readTime (s : String) : Option (Int × Int) :=
  match readInt (s.toList.takeWhile fun c => c != ':'),
      (s.toList.dropWhile fun c => c != ':') with
  | some mm, ':' :: rest =>
    match readInt rest with
    | some ss => some (mm, ss)
    | none => none
  | _, _ => none

/-! ## Rounding lemmas -/

theorem roundHalfEven_intCast (n : Int) : roundHalfEven (n : ℚ) = n := by
  unfold roundHalfEven
  simp

theorem roundHalfEven_floor_le (y : ℚ) : ⌊y⌋ ≤ roundHalfEven y := by
  unfold roundHalfEven; split_ifs <;> omega

theorem roundHalfEven_le_floor_succ (y : ℚ) : roundHalfEven y ≤ ⌊y⌋ + 1 := by
  unfold roundHalfEven; split_ifs <;> omega

theorem roundHalfEven_mono {a b : ℚ} (h : a ≤ b) : roundHalfEven a ≤ roundHalfEven b := by
  have hf : ⌊a⌋ ≤ ⌊b⌋ := Int.floor_mono h
  rcases hf.lt_or_eq with hlt | heq
  · have h1 := roundHalfEven_le_floor_succ a
    have h2 := roundHalfEven_floor_le b
    omega
  · unfold roundHalfEven
    rw [heq]
    split_ifs <;> first | omega | linarith

theorem f64round_zero : f64round 0 = 0 := by
  simp [f64round]

theorem f64round_pos_eq {x : ℚ} (hx : 0 < x) :
    f64round x = (roundHalfEven (x / 2 ^ (Int.log 2 x - 52)) : ℚ) * 2 ^ (Int.log 2 x - 52) := by
  unfold f64round
  rw [if_neg hx.ne', abs_of_pos hx]

theorem f64round_pos_bounds {x : ℚ} (hx : 0 < x) :
    (2 : ℚ) ^ (Int.log 2 x) ≤ f64round x ∧ f64round x ≤ 2 ^ (Int.log 2 x + 1) := by
  have hlo : (2 : ℚ) ^ (Int.log 2 x) ≤ x := by
    have := Int.zpow_log_le_self (R := ℚ) (b := 2) (by norm_num) hx
    simpa using this
  have hhi : x < (2 : ℚ) ^ (Int.log 2 x + 1) := by
    have := Int.lt_zpow_succ_log_self (R := ℚ) (b := 2) (by norm_num) x
    simpa using this
  set e := Int.log 2 x with he
  have hu : (0 : ℚ) < 2 ^ (e - 52) := by positivity
  rw [f64round_pos_eq hx, ← he]
  have e1 : (2 : ℚ) ^ e = ((2 ^ 52 : Int) : ℚ) * 2 ^ (e - 52) := by
    rw [zpow_sub₀ (by norm_num)]; push_cast; field_simp; ring
  have e2 : (2 : ℚ) ^ (e + 1) = ((2 ^ 53 : Int) : ℚ) * 2 ^ (e - 52) := by
    rw [zpow_sub₀ (by norm_num), zpow_add₀ (by norm_num)]; push_cast; field_simp; ring
  constructor
  · rw [e1]
    apply mul_le_mul_of_nonneg_right _ hu.le
    have : ((2 ^ 52 : Int) : ℚ) ≤ x / 2 ^ (e - 52) := by
      rw [le_div_iff₀ hu, ← e1]; exact hlo
    have := roundHalfEven_mono this
    rw [roundHalfEven_intCast] at this
    exact_mod_cast this
  · rw [e2]
    apply mul_le_mul_of_nonneg_right _ hu.le
    have : x / 2 ^ (e - 52) ≤ ((2 ^ 53 : Int) : ℚ) := by
      rw [div_le_iff₀ hu, ← e2]; exact hhi.le
    have := roundHalfEven_mono this
    rw [roundHalfEven_intCast] at this
    exact_mod_cast this

theorem f64round_nonneg {x : ℚ} (hx : 0 ≤ x) : 0 ≤ f64round x := by
  rcases hx.eq_or_lt with h | h
  · rw [← h, f64round_zero]
  · exact le_trans (by positivity) (f64round_pos_bounds h).1

theorem f64round_mono {x y : ℚ} (hx : 0 ≤ x) (hxy : x ≤ y) : f64round x ≤ f64round y := by
  rcases hx.eq_or_lt with h | h
  · rw [← h, f64round_zero]; exact f64round_nonneg (hx.trans hxy)
  · have hy : 0 < y := lt_of_lt_of_le h hxy
    have hlog : Int.log 2 x ≤ Int.log 2 y := Int.log_mono_right h hxy
    rcases hlog.lt_or_eq with hlt | heq
    · calc f64round x ≤ 2 ^ (Int.log 2 x + 1) := (f64round_pos_bounds h).2
        _ ≤ 2 ^ (Int.log 2 y) := zpow_le_zpow_right₀ (by norm_num) (by omega)
        _ ≤ f64round y := (f64round_pos_bounds hy).1
    · rw [f64round_pos_eq h, f64round_pos_eq hy, heq]
      have hu : (0 : ℚ) < 2 ^ (Int.log 2 y - 52) := by positivity
      apply mul_le_mul_of_nonneg_right _ hu.le
      have : x / 2 ^ (Int.log 2 y - 52) ≤ y / 2 ^ (Int.log 2 y - 52) :=
        div_le_div_of_nonneg_right hxy hu.le
      exact_mod_cast roundHalfEven_mono this

theorem f64round_dyadic (n : Int) (k : Nat) (h : |n| < 2 ^ 53) :
    f64round ((n : ℚ) / 2 ^ k) = (n : ℚ) / 2 ^ k := by
  by_cases hn : n = 0
  · subst hn; simp [f64round]
  have hx : (n : ℚ) / 2 ^ k ≠ 0 := div_ne_zero (by exact_mod_cast hn) (by positivity)
  have habs : |(n : ℚ) / 2 ^ k| = ((|n| : Int) : ℚ) / 2 ^ k := by
    rw [abs_div, abs_of_pos (by positivity : (0 : ℚ) < 2 ^ k)]; push_cast; rfl
  have hpos : 0 < |(n : ℚ) / 2 ^ k| := abs_pos.mpr hx
  have hlo := Int.zpow_log_le_self (R := ℚ) (b := 2) (by norm_num) hpos
  set e := Int.log 2 |(n : ℚ) / 2 ^ k| with he
  have hlt : (2 : ℚ) ^ e < 2 ^ ((53 : Int) - k) := by
    calc (2 : ℚ) ^ e ≤ |(n : ℚ) / 2 ^ k| := by simpa using hlo
      _ = ((|n| : Int) : ℚ) / 2 ^ k := habs
      _ < 2 ^ 53 / 2 ^ k := by
          apply div_lt_div_of_pos_right _ (by positivity)
          exact_mod_cast h
      _ = 2 ^ ((53 : Int) - k) := by
          rw [zpow_sub₀ (by norm_num)]; norm_cast
  have he' : e < 53 - k := (zpow_lt_zpow_iff_right₀ (by norm_num)).mp hlt
  obtain ⟨j, hj⟩ : ∃ j : Nat, e - 52 = -((k + j : Nat) : Int) := ⟨(52 - k - e).toNat, by omega⟩
  unfold f64round
  rw [if_neg hx, ← he, hj, zpow_neg, zpow_natCast]
  have hq : (n : ℚ) / 2 ^ k / (2 ^ (k + j))⁻¹ = ((n * 2 ^ j : Int) : ℚ) := by
    push_cast; field_simp; ring
  rw [hq, roundHalfEven_intCast]
  push_cast; field_simp; ring

theorem f64round_intCast (n : Int) (h : |n| < 2 ^ 53) : f64round (n : ℚ) = n := by
  have := f64round_dyadic n 0 h
  simpa using this

theorem roundHalfEven_spec (y : ℚ) :
    (y - 1 / 2 ≤ roundHalfEven y ∧ (roundHalfEven y : ℚ) ≤ y + 1 / 2)
      ∧ ((roundHalfEven y : ℚ) = y - 1 / 2 ∨ (roundHalfEven y : ℚ) = y + 1 / 2 →
          roundHalfEven y % 2 = 0) := by
  have hf1 : ((⌊y⌋ : Int) : ℚ) ≤ y := Int.floor_le y
  have hf2 : y < ((⌊y⌋ : Int) : ℚ) + 1 := Int.lt_floor_add_one y
  unfold roundHalfEven
  split_ifs with c1 c2 c3
  · refine ⟨⟨by linarith, by linarith⟩, fun h => ?_⟩
    rcases h with h | h <;> exfalso <;> linarith
  · push_cast
    refine ⟨⟨by linarith, by linarith⟩, fun h => ?_⟩
    rcases h with h | h <;> exfalso <;> linarith
  · exact ⟨⟨by linarith, by linarith⟩, fun _ => c3⟩
  · push_cast
    refine ⟨⟨by linarith, by linarith⟩, fun _ => ?_⟩
    omega

theorem roundHalfEven_unique {y : ℚ} {n : Int} (h1 : y - 1 / 2 ≤ n) (h2 : (n : ℚ) ≤ y + 1 / 2)
    (h3 : (n : ℚ) = y - 1 / 2 ∨ (n : ℚ) = y + 1 / 2 → n % 2 = 0) : roundHalfEven y = n := by
  have hf1 : ((⌊y⌋ : Int) : ℚ) ≤ y := Int.floor_le y
  have hf2 : y < ((⌊y⌋ : Int) : ℚ) + 1 := Int.lt_floor_add_one y
  have hlo : n - 1 ≤ ⌊y⌋ := by
    apply Int.le_floor.mpr
    push_cast
    linarith
  have hhi : ⌊y⌋ ≤ n := by
    have : ((⌊y⌋ : Int) : ℚ) < ((n + 1 : Int) : ℚ) := by push_cast; linarith
    have := Int.cast_lt.mp this
    omega
  rcases hhi.lt_or_eq with hlt | heq
  · have hfl : ⌊y⌋ = n - 1 := by omega
    have hc : ((⌊y⌋ : Int) : ℚ) = (n : ℚ) - 1 := by rw [hfl]; push_cast; ring
    unfold roundHalfEven
    rw [hc] at hf1 hf2 ⊢
    rw [hfl]
    split_ifs with c1 c2 c3
    · exfalso; linarith
    · ring
    · have : n % 2 = 0 := h3 (Or.inr (by linarith))
      omega
    · ring
  · have hc : ((⌊y⌋ : Int) : ℚ) = (n : ℚ) := by rw [heq]
    unfold roundHalfEven
    rw [hc] at hf1 hf2 ⊢
    rw [heq]
    split_ifs with c1 c2 c3
    · rfl
    · exfalso; linarith
    · rfl
    · exact absurd (h3 (Or.inl (by linarith))) c3

theorem roundHalfEven_neg (y : ℚ) : roundHalfEven (-y) = -roundHalfEven y := by
  obtain ⟨⟨s1, s2⟩, s3⟩ := roundHalfEven_spec y
  apply roundHalfEven_unique
  · push_cast; linarith
  · push_cast; linarith
  · intro h
    push_cast at h
    have : roundHalfEven y % 2 = 0 := by
      apply s3
      rcases h with h | h
      · right; linarith
      · left; linarith
    omega

theorem f64round_neg (x : ℚ) : f64round (-x) = -f64round x := by
  unfold f64round
  by_cases hx : x = 0
  · simp [hx]
  · rw [if_neg hx, if_neg (neg_ne_zero.mpr hx), abs_neg, neg_div, roundHalfEven_neg]
    push_cast
    ring

theorem f64round_nonpos {x : ℚ} (hx : x ≤ 0) : f64round x ≤ 0 := by
  have := f64round_nonneg (x := -x) (by linarith)
  rw [f64round_neg] at this
  linarith

/-- Rounding to `float64` is monotone. -/
theorem f64round_monotone {x y : ℚ} (hxy : x ≤ y) : f64round x ≤ f64round y := by
  rcases le_total 0 x with hx | hx
  · exact f64round_mono hx hxy
  · rcases le_total 0 y with hy | hy
    · exact le_trans (f64round_nonpos hx) (f64round_nonneg hy)
    · have := f64round_mono (x := -y) (y := -x) (by linarith) (by linarith)
      rw [f64round_neg, f64round_neg] at this
      linarith

/-! ## `Minutes` and `Seconds` on whole seconds -/

theorem Second_eq : Second = 1000000000 := rfl

theorem Minute_eq : Minute = 60000000000 := by decide

theorem Minutes_bounds {d : Int} (h0 : 0 ≤ d) (h1 : d < 2 ^ 63) (hs : Second ∣ d) :
    ((d / Minute : Int) : ℚ) ≤ Minutes d ∧ Minutes d ≤ ((d / Minute : Int) : ℚ) + 63 / 64 := by
  have hq : Int.tdiv d Minute = d / Minute := Int.tdiv_eq_ediv h0 (by decide)
  have hr : Int.tmod d Minute = d % Minute := Int.tmod_eq_emod h0 (by decide)
  rw [Minute_eq] at hq hr ⊢
  rw [Second_eq] at hs
  have hmn0 : 0 ≤ d / 60000000000 := by omega
  have hmn1 : d / 60000000000 < 2 ^ 28 := by omega
  have hn0 : 0 ≤ d % 60000000000 := by omega
  have hn1 : d % 60000000000 ≤ 59000000000 := by omega
  unfold Minutes f64ofInt
  rw [Minute_eq, hq, hr]
  rw [f64round_intCast (d / 60000000000) (by rw [abs_of_nonneg hmn0]; omega),
    f64round_intCast (d % 60000000000) (by rw [abs_of_nonneg hn0]; omega)]
  have hf0 : (0 : ℚ) ≤ ((d % 60000000000 : Int) : ℚ) / 60000000000 := by
    apply div_nonneg _ (by norm_num); exact_mod_cast hn0
  have hf1 : ((d % 60000000000 : Int) : ℚ) / 60000000000 ≤ 63 / 64 := by
    rw [div_le_iff₀ (by norm_num)]
    have : ((d % 60000000000 : Int) : ℚ) ≤ 59000000000 := by exact_mod_cast hn1
    linarith
  have hg0 := f64round_nonneg hf0
  have hg1 : f64round (((d % 60000000000 : Int) : ℚ) / 60000000000) ≤ 63 / 64 := by
    have := f64round_mono hf0 hf1
    have e := f64round_dyadic 63 6 (by norm_num)
    norm_num at e
    rwa [e] at this
  have hm0 : (0 : ℚ) ≤ ((d / 60000000000 : Int) : ℚ) := by exact_mod_cast hmn0
  constructor
  · have := f64round_mono hm0 (le_add_of_nonneg_right hg0)
    rwa [f64round_intCast _ (by rw [abs_of_nonneg hmn0]; omega)] at this
  · have := f64round_mono (add_nonneg hm0 hg0) (add_le_add_left hg1 _)
    have e := f64round_dyadic (d / 60000000000 * 64 + 63) 6
      (by rw [abs_of_nonneg (by omega)]; omega)
    have e' : (((d / 60000000000 * 64 + 63 : Int) : ℚ)) / 2 ^ 6
        = ((d / 60000000000 : Int) : ℚ) + 63 / 64 := by
      push_cast; ring
    rw [e'] at e
    rwa [e] at this

theorem wrap64_of_isInt64 {x : Int} (h : IsInt64 x) : wrap64 x = x := by
  unfold IsInt64 at h
  unfold wrap64
  omega

theorem f64toInt_of_bounds {x : ℚ} {q : Int} (h0 : (q : ℚ) ≤ x) (h1 : x < (q : ℚ) + 1)
    (hq : 0 ≤ q) : f64toInt x = q := by
  unfold f64toInt
  have hx : (0 : ℚ) ≤ x := le_trans (by exact_mod_cast hq) h0
  rw [if_pos hx, Int.floor_eq_iff]
  exact ⟨h0, h1⟩

/-- On a non-negative whole number of seconds `formatDuration` is exact: it rounds the
duration down to a multiple of five minutes. -/
theorem formatDuration_duration {m : model} (h0 : 0 ≤ m.duration) (h1 : m.duration < 2 ^ 63)
    (hs : Second ∣ m.duration) :
    (formatDuration m).duration = m.duration / (5 * Minute) * (5 * Minute) := by
  obtain ⟨hlo, hhi⟩ := Minutes_bounds h0 h1 hs
  rw [Minute_eq] at hlo hhi ⊢
  set d := m.duration with hd
  have hmn0 : 0 ≤ d / 60000000000 := by omega
  have hmn1 : d / 60000000000 < 2 ^ 28 := by omega
  have hq0 : 0 ≤ d / (5 * 60000000000) := by omega
  have hqm : d / 60000000000 = 5 * (d / (5 * 60000000000)) + d / 60000000000 % 5 := by omega
  have hr4 : d / 60000000000 % 5 ≤ 4 := by omega
  have hr0 : 0 ≤ d / 60000000000 % 5 := by omega
  have hcast : ((d / 60000000000 : Int) : ℚ)
      = 5 * ((d / (5 * 60000000000) : Int) : ℚ) + ((d / 60000000000 % 5 : Int) : ℚ) := by
    exact_mod_cast hqm
  have hr4' : ((d / 60000000000 % 5 : Int) : ℚ) ≤ 4 := by exact_mod_cast hr4
  have hr0' : (0 : ℚ) ≤ ((d / 60000000000 % 5 : Int) : ℚ) := by exact_mod_cast hr0
  have hq0' : (0 : ℚ) ≤ ((d / (5 * 60000000000) : Int) : ℚ) := by exact_mod_cast hq0
  have hM0 : (0 : ℚ) ≤ Minutes d / 5 := by
    apply div_nonneg _ (by norm_num); linarith
  have hA : ((d / (5 * 60000000000) : Int) : ℚ) ≤ Minutes d / 5 := by
    rw [le_div_iff₀ (by norm_num)]; linarith
  have hB : Minutes d / 5 ≤ ((d / (5 * 60000000000) : Int) : ℚ) + 1023 / 1024 := by
    rw [div_le_iff₀ (by norm_num)]; linarith
  have hlo3 : ((d / (5 * 60000000000) : Int) : ℚ) ≤ f64round (Minutes d / 5) := by
    have := f64round_mono hq0' hA
    rwa [f64round_intCast _ (by rw [abs_of_nonneg hq0]; omega)] at this
  have hhi3 : f64round (Minutes d / 5) ≤ ((d / (5 * 60000000000) : Int) : ℚ) + 1023 / 1024 := by
    have := f64round_mono hM0 hB
    have e := f64round_dyadic (d / (5 * 60000000000) * 1024 + 1023) 10
      (by rw [abs_of_nonneg (by omega)]; omega)
    have e' : (((d / (5 * 60000000000) * 1024 + 1023 : Int) : ℚ)) / 2 ^ 10
        = ((d / (5 * 60000000000) : Int) : ℚ) + 1023 / 1024 := by
      push_cast; ring
    rw [e'] at e
    rwa [e] at this
  have ht : f64toInt (f64round (Minutes d / 5)) = d / (5 * 60000000000) :=
    f64toInt_of_bounds hlo3 (by linarith) hq0
  show wrap64 (wrap64 (f64toInt (f64round (Minutes m.duration / 5)) * 5) * Minute) = _
  rw [← hd, ht, Minute_eq]
  rw [wrap64_of_isInt64 (x := d / (5 * 60000000000) * 5) (by unfold IsInt64; omega)]
  rw [wrap64_of_isInt64 (by unfold IsInt64; omega)]
  ring

/-! ## One step of `Update` -/

theorem run_nil (w : World) : run w [] = w := rfl

theorem run_cons (w : World) (msg : Msg) (msgs : List Msg) :
    run w (msg :: msgs) = run (Update w msg).1 msgs := rfl

theorem run_append (w : World) (xs ys : List Msg) :
    run w (xs ++ ys) = run (run w xs) ys := by
  simp [run, List.foldl_append]

theorem run_concat (w : World) (xs : List Msg) (msg : Msg) :
    run w (xs ++ [msg]) = (Update (run w xs) msg).1 := by
  rw [run_append]; rfl

/-- An adjustment key while the countdown runs: the ticker is dropped, the duration is
normalised and copied to `remaining`. -/
theorem Update_key_running {w : World} {s : String} (hs : s = "left" ∨ s = "right")
    (ht : w.m.ticker = true) :
    (Update w (Msg.key s)).1.m.duration = (formatDuration w.m).duration
      ∧ (Update w (Msg.key s)).1.m.remaining = (formatDuration w.m).duration
      ∧ (Update w (Msg.key s)).1.m.ticker = false
      ∧ (Update w (Msg.key s)).2 = Cmd.none := by
  rcases hs with rfl | rfl <;>
    simp [Update, ht, World.onModel, resetTimer, formatDuration]

/-- The decrease key while no countdown runs. -/
theorem Update_left_idle {w : World} (ht : w.m.ticker = false) :
    (Update w leftKey).1.m.duration
        = (if w.m.duration > 5 * Minute
            then wrap64 ((formatDuration w.m).duration - 5 * Minute) else 0)
      ∧ (Update w leftKey).1.m.remaining = (Update w leftKey).1.m.duration
      ∧ (Update w leftKey).1.m.ticker = false
      ∧ (Update w leftKey).2 = Cmd.none := by
  by_cases h : w.m.duration > 5 * Minute <;>
    simp [leftKey, Update, ht, h, World.onModel, resetTimer, formatDuration]

/-- The increase key while no countdown runs. -/
theorem Update_right_idle {w : World} (ht : w.m.ticker = false) :
    (Update w rightKey).1.m.duration = wrap64 ((formatDuration w.m).duration + 5 * Minute)
      ∧ (Update w rightKey).1.m.remaining = (Update w rightKey).1.m.duration
      ∧ (Update w rightKey).1.m.ticker = false
      ∧ (Update w rightKey).2 = Cmd.none := by
  simp [rightKey, Update, ht, World.onModel, resetTimer, formatDuration]

/-- A tick while the countdown runs and time is left. -/
theorem Update_tick_running {w : World} (ht : w.m.ticker = true) (hr : 0 < w.m.remaining) :
    (Update w Msg.tick).1.m.remaining = wrap64 (w.m.remaining - Second)
      ∧ (Update w Msg.tick).1.m.duration = wrap64 (w.m.remaining - Second)
      ∧ (Update w Msg.tick).1.m.ticker = true
      ∧ (Update w Msg.tick).2 = Cmd.tick := by
  simp [Update, ht, hr, World.onModel]

/-- A tick while the countdown runs and no time is left. -/
theorem Update_tick_done {w : World} (ht : w.m.ticker = true) (hr : w.m.remaining ≤ 0) :
    (Update w Msg.tick).1.m.remaining = w.m.duration
      ∧ (Update w Msg.tick).1.m.duration = w.m.duration
      ∧ (Update w Msg.tick).1.m.ticker = false
      ∧ (Update w Msg.tick).2 = Cmd.none := by
  simp [Update, ht, not_lt.mpr hr, World.onModel]

/-- The idle-expiry message while no countdown runs. -/
theorem Update_start_idle {w : World} (ht : w.m.ticker = false) :
    (Update w Msg.startTimer).1.m.remaining = w.m.remaining
      ∧ (Update w Msg.startTimer).1.m.duration = w.m.duration
      ∧ (Update w Msg.startTimer).1.m.ticker = true
      ∧ (Update w Msg.startTimer).2 = Cmd.tick := by
  simp [Update, ht, World.onModel]

/-! ## The invariant of bounded runs -/

theorem Update_key_other {w : World} {s : String} (h1 : ¬ (s = "ctrl+c" ∨ s = "q"))
    (h2 : s ≠ "left") (h3 : s ≠ "right") : (Update w (Msg.key s)).1 = w := by
  simp [Update, h1, h2, h3]

theorem Update_key_quit {w : World} {s : String} (h1 : s = "ctrl+c" ∨ s = "q") :
    (Update w (Msg.key s)).1 = w := by
  simp [Update, h1]

theorem Tame_mono {u v : Int} {w : World} (h : Tame u w) (huv : u ≤ v) : Tame v w := by
  obtain ⟨h1, h2, h3, h4, h5⟩ := h
  refine ⟨h1, h2, h3, ?_, h5⟩
  rw [Minute_eq] at h4 ⊢
  omega

theorem Tame_initial {w : World} (h : w.m = initialModel) : Tame 5 w := by
  unfold Tame
  rw [h]
  refine ⟨rfl, by decide, by decide, by decide, fun _ => by decide⟩

theorem formatDuration_tame {u : Int} {w : World} (h : Tame u w) (hu : u ≤ 30744573) :
    (formatDuration w.m).duration = w.m.duration / 300000000000 * 300000000000 := by
  obtain ⟨_, h2, h3, h4, _⟩ := h
  rw [Minute_eq] at h4
  have := formatDuration_duration h2 (by omega) h3
  rw [Minute_eq] at this
  simpa using this

theorem Tame_step {u : Int} {w : World} (msg : Msg) (h : Tame u w)
    (hu : u + (if msg = rightKey then 1 else 0) ≤ 30744573) :
    Tame (u + (if msg = rightKey then 1 else 0)) (Update w msg).1 := by
  have hu0 : u ≤ 30744573 := by split_ifs at hu <;> omega
  have hfd := formatDuration_tame h hu0
  have hmono : Tame (u + (if msg = rightKey then 1 else 0)) w :=
    Tame_mono h (by split_ifs <;> omega)
  obtain ⟨h1, h2, h3, h4, h5⟩ := h
  rw [Minute_eq] at h4 h5
  rw [Second_eq] at h3
  cases msg with
  | other => exact hmono
  | startTimer =>
    by_cases ht : w.m.ticker = false
    · obtain ⟨e1, e2, e3, _⟩ := Update_start_idle ht
      unfold Tame
      rw [e1, e2, e3, Minute_eq, Second_eq]
      simp [rightKey]
      exact ⟨h1, h2, h3, h4⟩
    · have : (Update w Msg.startTimer).1 = w := by simp [Update, ht]
      rw [this]; exact hmono
  | tick =>
    by_cases ht : w.m.ticker = true
    · by_cases hr : 0 < w.m.remaining
      · obtain ⟨e1, e2, e3, _⟩ := Update_tick_running ht hr
        rw [h1] at hr
        have hw : wrap64 (w.m.remaining - Second) = w.m.duration - 1000000000 := by
          rw [h1, Second_eq]
          exact wrap64_of_isInt64 (by unfold IsInt64; omega)
        unfold Tame
        rw [e1, e2, e3, hw, Minute_eq, Second_eq]
        simp [rightKey]
        omega
      · obtain ⟨e1, e2, e3, _⟩ := Update_tick_done ht (not_lt.mp hr)
        rw [h1] at hr
        unfold Tame
        rw [e1, e2, e3, Minute_eq, Second_eq]
        simp [rightKey]
        omega
    · have : (Update w Msg.tick).1 = w := by simp [Update, ht]
      rw [this]; exact hmono
  | key s =>
    by_cases hq : s = "ctrl+c" ∨ s = "q"
    · rw [Update_key_quit hq]; exact hmono
    by_cases hl : s = "left"
    · subst hl
      by_cases ht : w.m.ticker = true
      · obtain ⟨e1, e2, e3, _⟩ := Update_key_running (Or.inl rfl) ht
        unfold Tame
        rw [e1, e2, e3, hfd, Minute_eq, Second_eq]
        simp [rightKey]
        omega
      · obtain ⟨e1, e2, e3, _⟩ := Update_left_idle (Bool.eq_false_iff.mpr ht)
        rw [hfd, Minute_eq] at e1
        change Tame _ (Update w leftKey).1
        unfold Tame
        rw [e2, e1, e3, Minute_eq, Second_eq]
        simp [rightKey, leftKey]
        split_ifs with hgt
        · rw [wrap64_of_isInt64 (by unfold IsInt64; omega)]
          omega
        · omega
    by_cases hr : s = "right"
    · subst hr
      by_cases ht : w.m.ticker = true
      · obtain ⟨e1, e2, e3, _⟩ := Update_key_running (Or.inr rfl) ht
        unfold Tame
        rw [e1, e2, e3, hfd, Minute_eq, Second_eq]
        simp [rightKey]
        omega
      · obtain ⟨e1, e2, e3, _⟩ := Update_right_idle (Bool.eq_false_iff.mpr ht)
        rw [hfd, Minute_eq] at e1
        simp [rightKey] at hu
        have hw : wrap64 (w.m.duration / 300000000000 * 300000000000 + 5 * 60000000000)
            = w.m.duration / 300000000000 * 300000000000 + 300000000000 := by
          rw [wrap64_of_isInt64 (by unfold IsInt64; omega)]; norm_num
        rw [hw] at e1
        change Tame _ (Update w rightKey).1
        unfold Tame
        rw [e2, e1, e3, Minute_eq, Second_eq]
        simp [rightKey]
        omega
    · rw [Update_key_other hq hl hr]; exact hmono

theorem rightCount_nil : rightCount [] = 0 := rfl

theorem rightCount_cons (msg : Msg) (msgs : List Msg) :
    rightCount (msg :: msgs) = (if msg = rightKey then 1 else 0) + rightCount msgs := by
  unfold rightCount
  rw [List.count_cons]
  by_cases h : msg = rightKey
  · simp [h]; ring
  · simp [h]

theorem rightCount_nonneg (msgs : List Msg) : 0 ≤ rightCount msgs := by
  unfold rightCount; omega

theorem rightCount_take_le (msgs : List Msg) (n : Nat) :
    rightCount (msgs.take n) ≤ rightCount msgs := by
  unfold rightCount
  exact_mod_cast (List.take_sublist n msgs).count_le rightKey

theorem Tame_run (msgs : List Msg) : ∀ {u : Int} {w : World}, Tame u w →
    u + rightCount msgs ≤ 30744573 → Tame (u + rightCount msgs) (run w msgs) := by
  induction msgs with
  | nil => intro u w h _; simpa [rightCount_nil, run_nil] using h
  | cons msg msgs ih =>
    intro u w h hu
    rw [rightCount_cons] at hu ⊢
    rw [run_cons, ← add_assoc]
    have hn := rightCount_nonneg msgs
    exact ih (Tame_step msg h (by omega)) (by omega)

/-- Every state reached from `initialModel()` by messages of which at most 30744568 are
increase keys satisfies the invariant. -/
theorem Tame_reachable {w0 : World} (h0 : w0.m = initialModel) (msgs : List Msg)
    (hc : rightCount msgs ≤ 30744568) : Tame 30744573 (run w0 msgs) :=
  Tame_mono (Tame_run msgs (Tame_initial h0) (by omega)) (by omega)

/-! ## A duration on which `formatDuration` rounds up

One nanosecond below 262145 minutes the sum computed by `Minutes` is no longer
representable and rounds to `262145`. -/

theorem roundHalfEven_ge {y : ℚ} (n : Int) (h : (n : ℚ) - 1 / 2 < y) : n ≤ roundHalfEven y := by
  have hf : n - 1 ≤ ⌊y⌋ := by
    apply Int.le_floor.mpr
    push_cast
    linarith
  rcases hf.lt_or_eq with hlt | heq
  · have := roundHalfEven_floor_le y
    omega
  · have hc : ((⌊y⌋ : Int) : ℚ) = (n : ℚ) - 1 := by rw [← heq]; push_cast; ring
    unfold roundHalfEven
    rw [hc]
    split_ifs <;> first | omega | linarith

theorem f64round_ge_of {x : ℚ} {e : Int} (n : Int) (h1 : (2 : ℚ) ^ e ≤ x)
    (h2 : x < (2 : ℚ) ^ (e + 1)) (h : (n : ℚ) - 1 / 2 < x / 2 ^ (e - 52)) :
    (n : ℚ) * 2 ^ (e - 52) ≤ f64round x := by
  have hx : 0 < x := lt_of_lt_of_le (by positivity) h1
  have hle : e ≤ Int.log 2 x :=
    (Int.zpow_le_iff_le_log (R := ℚ) (b := 2) (by norm_num) hx).mp (by simpa using h1)
  have hlt : Int.log 2 x < e + 1 :=
    (Int.lt_zpow_iff_log_lt (R := ℚ) (b := 2) (by norm_num) hx).mp (by simpa using h2)
  have he : Int.log 2 x = e := by omega
  rw [f64round_pos_eq hx, he]
  apply mul_le_mul_of_nonneg_right _ (by positivity)
  exact_mod_cast roundHalfEven_ge n h

theorem Minutes_drift : Minutes 15728699999999999 = 262145 := by
  have hq : Int.tdiv 15728699999999999 Minute = 262144 := by decide
  have hr : Int.tmod 15728699999999999 Minute = 59999999999 := by decide
  unfold Minutes f64ofInt
  rw [hq, hr, f64round_intCast 262144 (by norm_num), f64round_intCast 59999999999 (by norm_num)]
  set f := f64round (((59999999999 : Int) : ℚ) / 60000000000) with hf
  have hx0 : (0 : ℚ) ≤ ((59999999999 : Int) : ℚ) / 60000000000 := by norm_num
  have hlo : (137438953469 : ℚ) / 137438953472 ≤ f := by
    have e := f64round_dyadic 137438953469 37 (by norm_num)
    norm_num at e
    have := f64round_mono (x := 137438953469 / 137438953472)
      (y := ((59999999999 : Int) : ℚ) / 60000000000) (by norm_num) (by norm_num)
    rwa [e] at this
  have hhi : f ≤ 1 := by
    have e := f64round_intCast 1 (by norm_num)
    have := f64round_mono hx0 (y := ((1 : Int) : ℚ)) (by norm_num)
    rwa [e] at this
  apply le_antisymm
  · have e := f64round_intCast 262145 (by norm_num)
    have := f64round_mono (x := ((262144 : Int) : ℚ) + f) (y := ((262145 : Int) : ℚ))
      (by push_cast; linarith) (by push_cast; linarith)
    rw [e] at this
    exact_mod_cast this
  · have := f64round_ge_of (x := ((262144 : Int) : ℚ) + f) (e := 18) 4503616807239680
      (by push_cast; norm_num; linarith) (by push_cast; norm_num; linarith)
      (by
        rw [lt_div_iff₀ (by positivity)]
        push_cast
        norm_num
        linarith)
    norm_num at this
    exact this

theorem formatDuration_drift (m : model) (h : m.duration = 15728699999999999) :
    (formatDuration m).duration = 15728700000000000 := by
  show wrap64 (wrap64 (f64toInt (f64round (Minutes m.duration / 5)) * 5) * Minute) = _
  rw [h, Minutes_drift]
  have e := f64round_intCast 52429 (by norm_num)
  have e' : (262145 : ℚ) / 5 = ((52429 : Int) : ℚ) := by norm_num
  rw [e', e]
  have ht : f64toInt ((52429 : Int) : ℚ) = 52429 :=
    f64toInt_of_bounds (le_refl _) (by norm_num) (by norm_num)
  rw [ht]
  decide

/-! ## The adjustment keys on whole seconds -/

theorem left_idle_duration {w : World} (ht : w.m.ticker = false) (h0 : 0 ≤ w.m.duration)
    (h1 : w.m.duration < 2 ^ 63) (hs : Second ∣ w.m.duration) :
    (Update w leftKey).1.m.duration
      = max 0 (w.m.duration / (5 * Minute) * (5 * Minute) - 5 * Minute) := by
  obtain ⟨e1, _⟩ := Update_left_idle ht
  rw [e1, formatDuration_duration h0 h1 hs, Minute_eq]
  split_ifs with hgt
  · rw [wrap64_of_isInt64 (by unfold IsInt64; omega)]
    omega
  · omega

theorem right_idle_duration {w : World} (ht : w.m.ticker = false) (h0 : 0 ≤ w.m.duration)
    (h1 : w.m.duration < 2 ^ 63) (hs : Second ∣ w.m.duration) :
    (Update w rightKey).1.m.duration
      = wrap64 (w.m.duration / (5 * Minute) * (5 * Minute) + 5 * Minute) := by
  obtain ⟨e1, _⟩ := Update_right_idle ht
  rw [e1, formatDuration_duration h0 h1 hs]

theorem run_replicate_right (k : Nat) : ∀ {w : World} {u : Int}, w.m.ticker = false →
    w.m.duration = u * (5 * Minute) → 0 ≤ u → u + k ≤ 30744573 →
    (run w (List.replicate k rightKey)).m.duration = (u + k) * (5 * Minute)
      ∧ (run w (List.replicate k rightKey)).m.ticker = false := by
  induction k with
  | zero => intro w u ht hd _ _; simpa [run_nil] using ⟨hd, ht⟩
  | succ k ih =>
    intro w u ht hd h0 hb
    rw [List.replicate_succ, run_cons]
    have hd' := hd
    rw [Minute_eq] at hd'
    have e := right_idle_duration ht (by omega) (by omega) (by rw [Second_eq]; omega)
    rw [Minute_eq, wrap64_of_isInt64 (by unfold IsInt64; omega)] at e
    have := ih (w := (Update w rightKey).1) (u := u + 1) (Update_right_idle ht).2.2.1
      (by rw [e, Minute_eq]; omega) (by omega) (by push_cast at hb; omega)
    rw [this.1, this.2]
    push_cast
    exact ⟨by ring, rfl⟩

theorem run_replicate_left (k : Nat) : ∀ {w : World} {u : Int}, w.m.ticker = false →
    w.m.duration = u * (5 * Minute) → 0 ≤ u → u ≤ 30744573 →
    (run w (List.replicate k leftKey)).m.duration = max 0 (u - k) * (5 * Minute)
      ∧ (run w (List.replicate k leftKey)).m.ticker = false := by
  induction k with
  | zero =>
    intro w u ht hd h0 _
    simp only [List.replicate_zero, run_nil, Nat.cast_zero, sub_zero, max_eq_right h0]
    exact ⟨hd, ht⟩
  | succ k ih =>
    intro w u ht hd h0 hb
    rw [List.replicate_succ, run_cons]
    have hd' := hd
    rw [Minute_eq] at hd'
    have e := left_idle_duration ht (by omega) (by omega) (by rw [Second_eq]; omega)
    rw [Minute_eq] at e
    have := ih (w := (Update w leftKey).1) (u := max 0 (u - 1)) (Update_left_idle ht).2.2.1
      (by rw [e, Minute_eq]; omega) (by omega) (by omega)
    rw [this.1, this.2]
    push_cast
    refine ⟨?_, rfl⟩
    congr 1
    omega

theorem run_keys_ticker (msgs : List Msg) : ∀ {w : World}, w.m.ticker = false →
    (∀ e ∈ msgs, e = leftKey ∨ e = rightKey) → (run w msgs).m.ticker = false := by
  induction msgs with
  | nil => intro w ht _; simpa [run_nil] using ht
  | cons msg msgs ih =>
    intro w ht hk
    rw [run_cons]
    apply ih _ (fun e he => hk e (List.mem_cons_of_mem _ he))
    rcases hk msg (List.mem_cons_self _ _) with rfl | rfl
    · exact (Update_left_idle ht).2.2.1
    · exact (Update_right_idle ht).2.2.1

/-! ## Adjusting the duration while no countdown runs -/

/-- The 30744569th consecutive increase from `initialModel()` wraps the duration around. -/
theorem run_right_overflow :
    (run initialWorld (List.replicate 30744569 rightKey)).m.duration = -9223371873709551616
      ∧ (run initialWorld (List.replicate 30744569 rightKey)).m.remaining
          = -9223371873709551616
      ∧ (run initialWorld (List.replicate 30744569 rightKey)).m.ticker = false := by
  have hn : (30744569 : Nat) = 30744568 + 1 := rfl
  have h := run_replicate_right 30744568 (w := initialWorld) (u := 5) rfl (by decide)
    (by decide) (by decide)
  have hd : (run initialWorld (List.replicate 30744568 rightKey)).m.duration
      = 9223371900000000000 := by rw [h.1]; decide
  have e := right_idle_duration h.2 (by rw [hd]; decide) (by rw [hd]; decide)
    (by rw [hd]; decide)
  obtain ⟨_, e2, e3, _⟩ := Update_right_idle h.2
  have hv : (Update (run initialWorld (List.replicate 30744568 rightKey)) rightKey).1.m.duration
      = -9223371873709551616 := by
    rw [e, hd]
    decide
  rw [hn, List.replicate_succ', run_concat, e2, e3, hv]
  exact ⟨rfl, rfl, rfl⟩

/-- C1, counterexample.  After 30744569 presses of the increase key from `initialModel()`
the `int64` duration has wrapped around: it is negative, and not a multiple of five
minutes. -/
theorem C1_counterexample :
    (run initialWorld (List.replicate 30744569 rightKey)).m.duration = -9223371873709551616
      ∧ ¬ (5 * Minute ∣ (run initialWorld (List.replicate 30744569 rightKey)).m.duration) := by
  rw [run_right_overflow.1]
  exact ⟨rfl, by decide⟩

/-- C1, amended.  For every sequence of decrease and increase key events applied through
`Update` to `initialModel()` in which the increase key occurs at most 30744568 times, after
every event (after every prefix of the sequence) no countdown runs and `duration` is a
non-negative exact multiple of five minutes.  In particular three decreases from 25:00
give 10:00, and seven further decreases give 0:00. -/
theorem C1_idle_adjustments (w0 : World) (h0 : w0.m = initialModel) (evs : List Msg)
    (hk : ∀ e ∈ evs, e = leftKey ∨ e = rightKey) (hc : rightCount evs ≤ 30744568) (n : Nat) :
    (run w0 (evs.take n)).m.ticker = false
      ∧ 0 ≤ (run w0 (evs.take n)).m.duration
      ∧ 5 * Minute ∣ (run w0 (evs.take n)).m.duration
      ∧ (run w0 [leftKey, leftKey, leftKey]).m.duration = 10 * Minute
      ∧ (run (run w0 [leftKey, leftKey, leftKey]) (List.replicate 7 leftKey)).m.duration = 0 := by
  have ht0 : w0.m.ticker = false := by rw [h0]; rfl
  have hd0 : w0.m.duration = 5 * (5 * Minute) := by rw [h0]; decide
  have htk : (run w0 (evs.take n)).m.ticker = false :=
    run_keys_ticker _ ht0 (fun e he => hk e (List.mem_of_mem_take he))
  have hT := Tame_reachable h0 (evs.take n) (le_trans (rightCount_take_le evs n) hc)
  have h3 := run_replicate_left 3 (w := w0) (u := 5) ht0 hd0 (by decide) (by decide)
  have h3d : (run w0 [leftKey, leftKey, leftKey]).m.duration = 2 * (5 * Minute) := by
    have := h3.1
    simpa [List.replicate] using this
  have h7 := run_replicate_left 7 (w := run w0 [leftKey, leftKey, leftKey]) (u := 2)
    (by simpa [List.replicate] using h3.2) h3d (by decide) (by decide)
  refine ⟨htk, hT.2.1, hT.2.2.2.2 htk, ?_, ?_⟩
  · rw [h3d]; ring
  · rw [h7.1]; decide

/-- C1, witness: the sequence decrease, increase, decrease. -/
theorem C1_idle_adjustments_witness :
    (run initialWorld ([leftKey, rightKey, leftKey].take 2)).m.ticker = false
      ∧ 0 ≤ (run initialWorld ([leftKey, rightKey, leftKey].take 2)).m.duration
      ∧ 5 * Minute ∣ (run initialWorld ([leftKey, rightKey, leftKey].take 2)).m.duration
      ∧ (run initialWorld [leftKey, leftKey, leftKey]).m.duration = 10 * Minute
      ∧ (run (run initialWorld [leftKey, leftKey, leftKey])
          (List.replicate 7 leftKey)).m.duration = 0 :=
  C1_idle_adjustments initialWorld rfl [leftKey, rightKey, leftKey]
    (by decide) (by decide) 2

/-- C2, counterexample.  With `ticker == nil` and a duration of 262145 minutes less one
nanosecond, the `float64` value of `Minutes()` is `262145`, so `formatDuration` rounds up
and the decrease key yields 262140 minutes, whereas rounding down to a multiple of five
minutes and subtracting five minutes gives 262135 minutes. -/
theorem C2_counterexample :
    (Update (idleAt 15728699999999999) leftKey).1.m.duration = 262140 * Minute
      ∧ max 0 (15728699999999999 / (5 * Minute) * (5 * Minute) - 5 * Minute)
          = 262135 * Minute := by
  constructor
  · rw [(Update_left_idle rfl).1, formatDuration_drift _ rfl]
    decide
  · decide

/-- C2, amended.  Decrease while not running: for every state with `ticker == nil` whose
duration `d` is a non-negative whole number of seconds, `Update` on the decrease key yields
`duration' = max(0, floor(d / 5min) * 5min - 5min)`, `remaining' = duration'`, and the
ticker is still nil. -/
theorem C2_decrease_idle (w : World) (ht : w.m.ticker = false) (h0 : 0 ≤ w.m.duration)
    (h1 : IsInt64 w.m.duration) (hs : Second ∣ w.m.duration) :
    (Update w leftKey).1.m.duration
        = max 0 (w.m.duration / (5 * Minute) * (5 * Minute) - 5 * Minute)
      ∧ (Update w leftKey).1.m.remaining = (Update w leftKey).1.m.duration
      ∧ (Update w leftKey).1.m.ticker = false :=
  ⟨left_idle_duration ht h0 h1.2 hs, (Update_left_idle ht).2.1, (Update_left_idle ht).2.2.1⟩

/-- C2, witness: the decrease key at 12:34 gives 5:00. -/
theorem C2_decrease_idle_witness :
    (Update (idleAt (754 * Second)) leftKey).1.m.duration
        = max 0 (754 * Second / (5 * Minute) * (5 * Minute) - 5 * Minute)
      ∧ (Update (idleAt (754 * Second)) leftKey).1.m.remaining
        = (Update (idleAt (754 * Second)) leftKey).1.m.duration
      ∧ (Update (idleAt (754 * Second)) leftKey).1.m.ticker = false :=
  C2_decrease_idle _ rfl (by decide) (by decide) (by decide)

/-- C3, counterexample.  At 30744573 times five minutes, the largest multiple of five
minutes an `int64` holds, the increase key wraps the duration around to a negative value;
and at 262145 minutes less one nanosecond `formatDuration` rounds up, so the increase key
yields 262150 minutes instead of 262145 minutes. -/
theorem C3_counterexample :
    (Update (idleAt 9223371900000000000) rightKey).1.m.duration = -9223371873709551616
      ∧ (Update (idleAt 15728699999999999) rightKey).1.m.duration = 262150 * Minute
      ∧ 15728699999999999 / (5 * Minute) * (5 * Minute) + 5 * Minute = 262145 * Minute := by
  refine ⟨?_, ?_, by decide⟩
  · rw [right_idle_duration rfl (by decide) (by decide) (by decide)]
    decide
  · rw [(Update_right_idle rfl).1, formatDuration_drift _ rfl]
    decide

/-- C3, amended.  Increase while not running: for every state with `ticker == nil` whose
duration `d` is a non-negative whole number of seconds with
`floor(d / 5min) * 5min + 5min` within `int64`, `Update` on the increase key yields
`duration' = floor(d / 5min) * 5min + 5min`, `remaining' = duration'`, the ticker is still
nil, and `duration' > d`. -/
theorem C3_increase_idle (w : World) (ht : w.m.ticker = false) (h0 : 0 ≤ w.m.duration)
    (hs : Second ∣ w.m.duration)
    (hb : IsInt64 (w.m.duration / (5 * Minute) * (5 * Minute) + 5 * Minute)) :
    (Update w rightKey).1.m.duration = w.m.duration / (5 * Minute) * (5 * Minute) + 5 * Minute
      ∧ (Update w rightKey).1.m.remaining = (Update w rightKey).1.m.duration
      ∧ (Update w rightKey).1.m.ticker = false
      ∧ w.m.duration < (Update w rightKey).1.m.duration := by
  have hlt : w.m.duration < 2 ^ 63 := by
    have := hb.2
    rw [Minute_eq] at this
    omega
  have e := right_idle_duration ht h0 hlt hs
  rw [wrap64_of_isInt64 hb] at e
  refine ⟨e, (Update_right_idle ht).2.1, (Update_right_idle ht).2.2.1, ?_⟩
  rw [e, Minute_eq]
  omega

/-- C3, witness: the increase key at 12:34 gives 15:00. -/
theorem C3_increase_idle_witness :
    (Update (idleAt (754 * Second)) rightKey).1.m.duration
        = 754 * Second / (5 * Minute) * (5 * Minute) + 5 * Minute
      ∧ (Update (idleAt (754 * Second)) rightKey).1.m.remaining
        = (Update (idleAt (754 * Second)) rightKey).1.m.duration
      ∧ (Update (idleAt (754 * Second)) rightKey).1.m.ticker = false
      ∧ 754 * Second < (Update (idleAt (754 * Second)) rightKey).1.m.duration :=
  C3_increase_idle _ rfl (by decide) (by decide) (by decide)

/-! ## The countdown -/

theorem run_replicate_succ_tick (w : World) (k : Nat) :
    run w (List.replicate (k + 1) Msg.tick) = (Update (run w (List.replicate k Msg.tick)) Msg.tick).1 := by
  rw [List.replicate_succ', run_concat]

/-- While time is left, `k` ticks take `k` seconds off `remaining` and keep the countdown
running; from the first tick on `duration` is a copy of `remaining`. -/
theorem run_replicate_tick (k : Nat) : ∀ {w : World} {n : Nat}, w.m.ticker = true →
    w.m.remaining = n * Second → IsInt64 w.m.remaining → k ≤ n →
    (run w (List.replicate k Msg.tick)).m.ticker = true
      ∧ (run w (List.replicate k Msg.tick)).m.remaining = (n - k : Int) * Second
      ∧ (run w (List.replicate k Msg.tick)).m.duration
          = (if k = 0 then w.m.duration else (n - k : Int) * Second) := by
  induction k with
  | zero =>
    intro w n ht hr _ _
    simp only [List.replicate_zero, run_nil, Nat.cast_zero, sub_zero, if_true]
    exact ⟨ht, hr, trivial⟩
  | succ k ih =>
    intro w n ht hr hi hk
    obtain ⟨i1, i2, _⟩ := ih ht hr hi (by omega)
    unfold IsInt64 at hi
    rw [hr, Second_eq] at hi
    rw [Second_eq] at i2
    have hpos : 0 < (run w (List.replicate k Msg.tick)).m.remaining := by
      rw [i2]; omega
    obtain ⟨e1, e2, e3, _⟩ := Update_tick_running i1 hpos
    have hw : wrap64 ((run w (List.replicate k Msg.tick)).m.remaining - Second)
        = ((n : Int) - ((k + 1 : Nat) : Int)) * Second := by
      rw [i2, Second_eq, wrap64_of_isInt64 (by unfold IsInt64; omega)]
      push_cast
      ring
    rw [run_replicate_succ_tick, e1, e2, e3, hw]
    simp

/-- C4.  Tick while running with time left: for every state with `ticker != nil` and
`remaining > 0` (an `int64`), `Update` on a `tickMsg` yields `remaining' = remaining - 1s`
exactly, leaves the ticker non-nil, and returns the command that delivers the next
`tickMsg`. -/
theorem C4_tick_decrements (w : World) (ht : w.m.ticker = true) (hr : 0 < w.m.remaining)
    (hi : IsInt64 w.m.remaining) :
    (Update w Msg.tick).1.m.remaining = w.m.remaining - Second
      ∧ (Update w Msg.tick).1.m.ticker = true
      ∧ (Update w Msg.tick).2 = Cmd.tick := by
  obtain ⟨e1, _, e3, e4⟩ := Update_tick_running ht hr
  refine ⟨?_, e3, e4⟩
  rw [e1]
  apply wrap64_of_isInt64
  unfold IsInt64 at hi ⊢
  rw [Second_eq]
  omega

/-- C4, witness: a tick at 29:59 leaves 29:58. -/
theorem C4_tick_decrements_witness :
    (Update (Update (idleAt (1799 * Second)) Msg.startTimer).1 Msg.tick).1.m.remaining
        = (Update (idleAt (1799 * Second)) Msg.startTimer).1.m.remaining - Second
      ∧ (Update (Update (idleAt (1799 * Second)) Msg.startTimer).1 Msg.tick).1.m.ticker = true
      ∧ (Update (Update (idleAt (1799 * Second)) Msg.startTimer).1 Msg.tick).2 = Cmd.tick :=
  C4_tick_decrements (Update (idleAt (1799 * Second)) Msg.startTimer).1 rfl
    (by decide) (by decide)

/-- C5.  Countdown completion: for every state with `ticker != nil` whose `remaining` is
`n` whole seconds, the machine is still running after each of the first `n` ticks, with
`n - k` seconds left after the `k`-th and exactly 0 after the `n`-th; the `(n+1)`-th tick
sets the ticker to nil, leaves `remaining` equal to `duration`, and returns no command. -/
theorem C5_countdown_completion (w : World) (n : Nat) (ht : w.m.ticker = true)
    (hr : w.m.remaining = n * Second) (hi : IsInt64 w.m.remaining) :
    (∀ k : Nat, k ≤ n →
        (run w (List.replicate k Msg.tick)).m.ticker = true
          ∧ (run w (List.replicate k Msg.tick)).m.remaining = (n - k : Int) * Second)
      ∧ (run w (List.replicate n Msg.tick)).m.remaining = 0
      ∧ (run w (List.replicate (n + 1) Msg.tick)).m.ticker = false
      ∧ (run w (List.replicate (n + 1) Msg.tick)).m.remaining
          = (run w (List.replicate (n + 1) Msg.tick)).m.duration
      ∧ (Update (run w (List.replicate n Msg.tick)) Msg.tick).2 = Cmd.none := by
  obtain ⟨i1, i2, _⟩ := run_replicate_tick n ht hr hi le_rfl
  have hz : (run w (List.replicate n Msg.tick)).m.remaining = 0 := by rw [i2]; ring
  obtain ⟨e1, e2, e3, e4⟩ := Update_tick_done i1 hz.le
  refine ⟨fun k hk => ?_, hz, ?_, ?_, e4⟩
  · obtain ⟨j1, j2, _⟩ := run_replicate_tick k ht hr hi hk
    exact ⟨j1, j2⟩
  · rw [run_replicate_succ_tick, e3]
  · rw [run_replicate_succ_tick, e1, e2]

/-- C5, witness: three seconds left on a running countdown. -/
theorem C5_countdown_completion_witness :
    (∀ k : Nat, k ≤ 3 →
        (run (Update (idleAt (3 * Second)) Msg.startTimer).1
            (List.replicate k Msg.tick)).m.ticker = true
          ∧ (run (Update (idleAt (3 * Second)) Msg.startTimer).1
              (List.replicate k Msg.tick)).m.remaining = ((3 : Nat) - k : Int) * Second)
      ∧ (run (Update (idleAt (3 * Second)) Msg.startTimer).1
          (List.replicate 3 Msg.tick)).m.remaining = 0
      ∧ (run (Update (idleAt (3 * Second)) Msg.startTimer).1
          (List.replicate (3 + 1) Msg.tick)).m.ticker = false
      ∧ (run (Update (idleAt (3 * Second)) Msg.startTimer).1
          (List.replicate (3 + 1) Msg.tick)).m.remaining
          = (run (Update (idleAt (3 * Second)) Msg.startTimer).1
              (List.replicate (3 + 1) Msg.tick)).m.duration
      ∧ (Update (run (Update (idleAt (3 * Second)) Msg.startTimer).1
          (List.replicate 3 Msg.tick)) Msg.tick).2 = Cmd.none :=
  C5_countdown_completion (Update (idleAt (3 * Second)) Msg.startTimer).1 3 rfl
    (by decide) (by decide)

/-- After the idle-expiry message and `k ≥ 1` ticks of a countdown of `D ≥ k` seconds, both
`remaining` and `duration` are `D - k` seconds and the countdown runs. -/
theorem run_start_ticks {w : World} {D : Int} {k : Nat} (ht : w.m.ticker = false)
    (hr : w.m.remaining = D) (hD : IsInt64 D) (hs : Second ∣ D) (hk1 : 1 ≤ k)
    (hk2 : k * Second ≤ D) :
    (run w (Msg.startTimer :: List.replicate k Msg.tick)).m.ticker = true
      ∧ (run w (Msg.startTimer :: List.replicate k Msg.tick)).m.remaining = D - k * Second
      ∧ (run w (Msg.startTimer :: List.replicate k Msg.tick)).m.duration = D - k * Second := by
  obtain ⟨e1, _, e3, _⟩ := Update_start_idle ht
  rw [Second_eq] at hs hk2
  obtain ⟨c, hc⟩ := hs
  have hc0 : 0 ≤ c := by omega
  have hn : D = (c.toNat : Int) * Second := by
    rw [Second_eq, Int.toNat_of_nonneg hc0, hc]; ring
  obtain ⟨i1, i2, i3⟩ := run_replicate_tick k (w := (Update w Msg.startTimer).1)
    (n := c.toNat) e3 (by rw [e1, hr, hn]) (by rw [e1, hr]; exact hD)
    (by have : (k : Int) ≤ c.toNat := by rw [Int.toNat_of_nonneg hc0]; omega
        exact_mod_cast this)
  rw [run_cons]
  rw [if_neg (by omega)] at i3
  refine ⟨i1, ?_, ?_⟩
  · rw [i2, hn]; ring
  · rw [i3, hn]; ring

/-- C6, counterexample (the scenario of the specification).  Default 25:00, one increase to
30:00, idle-expiry, ticks to 29:59 and 29:58, then the decrease key: the countdown is
cancelled with `remaining` 25:00, not 30:00. -/
theorem C6_counterexample :
    (run initialWorld [rightKey]).m.duration = 30 * Minute
      ∧ (run initialWorld [rightKey, Msg.startTimer, Msg.tick, Msg.tick]).m.remaining
          = 30 * Minute - 2 * Second
      ∧ (run initialWorld [rightKey, Msg.startTimer, Msg.tick, Msg.tick, leftKey]).m.ticker
          = false
      ∧ (run initialWorld [rightKey, Msg.startTimer, Msg.tick, Msg.tick, leftKey]).m.remaining
          = 25 * Minute := by
  have h1 := run_replicate_right 1 (w := initialWorld) (u := 5) rfl (by decide) (by decide)
    (by decide)
  have hd : (run initialWorld [rightKey]).m.duration = 30 * Minute := by
    have := h1.1
    simp only [List.replicate] at this
    rw [this]; decide
  have hr : (run initialWorld [rightKey]).m.remaining = 30 * Minute := by
    have := (Update_right_idle (w := initialWorld) rfl).2.1
    rw [run_cons, run_nil, this, ← hd]
    rfl
  have ht : (run initialWorld [rightKey]).m.ticker = false := by
    simpa [List.replicate] using h1.2
  obtain ⟨t1, t2, t3⟩ := run_start_ticks (k := 2) ht hr (by decide) (by decide) (by decide)
    (by decide)
  have e : ∀ tl : List Msg, run initialWorld (rightKey :: tl)
      = run (run initialWorld [rightKey]) tl := fun tl => rfl
  have e5 : run initialWorld [rightKey, Msg.startTimer, Msg.tick, Msg.tick, leftKey]
      = (Update (run (run initialWorld [rightKey])
          (Msg.startTimer :: List.replicate 2 Msg.tick)) leftKey).1 := rfl
  obtain ⟨c1, c2, c3, _⟩ := Update_key_running (s := "left") (Or.inl rfl) t1
  have hf := formatDuration_duration
    (m := (run (run initialWorld [rightKey]) (Msg.startTimer :: List.replicate 2 Msg.tick)).m)
    (by rw [t3]; decide) (by rw [t3]; decide) (by rw [t3]; decide)
  refine ⟨hd, ?_, ?_, ?_⟩
  · rw [e]; exact t2
  · rw [e5]; exact c3
  · rw [e5]
    change (Update _ (Msg.key "left")).1.m.remaining = _
    rw [c2, hf, t3]
    decide

/-- C6, amended.  Cancel mid-countdown: for every configured duration `D` that is a positive
multiple of five minutes, starting from the not-running state with
`duration = remaining = D`, after a `startTimerMsg` and `k` decrementing ticks
(`1 ≤ k`, `k` seconds `≤ D`), a decrease or increase key yields `ticker == nil` and
`remaining = duration =` the largest multiple of five minutes not above `D - k` seconds,
which is below `D`. -/
theorem C6_cancel_mid_countdown (w : World) (D : Int) (k : Nat) (s : String)
    (hs : s = "left" ∨ s = "right") (ht : w.m.ticker = false) (_hd : w.m.duration = D)
    (hr : w.m.remaining = D) (hD0 : 0 < D) (hD5 : 5 * Minute ∣ D) (hDi : IsInt64 D)
    (hk1 : 1 ≤ k) (hk2 : k * Second ≤ D) :
    (run w (Msg.startTimer :: List.replicate k Msg.tick ++ [Msg.key s])).m.ticker = false
      ∧ (run w (Msg.startTimer :: List.replicate k Msg.tick ++ [Msg.key s])).m.remaining
          = (D - k * Second) / (5 * Minute) * (5 * Minute)
      ∧ (run w (Msg.startTimer :: List.replicate k Msg.tick ++ [Msg.key s])).m.duration
          = (D - k * Second) / (5 * Minute) * (5 * Minute)
      ∧ (run w (Msg.startTimer :: List.replicate k Msg.tick ++ [Msg.key s])).m.remaining
          < D := by
  have hsec : Second ∣ D := by
    rw [Minute_eq] at hD5
    rw [Second_eq]
    omega
  obtain ⟨t1, t2, t3⟩ := run_start_ticks ht hr hDi hsec hk1 hk2
  obtain ⟨c1, c2, c3, _⟩ := Update_key_running hs t1
  have hDi' := hDi
  unfold IsInt64 at hDi'
  rw [Second_eq] at hk2 hsec
  have hf := formatDuration_duration
    (m := (run w (Msg.startTimer :: List.replicate k Msg.tick)).m)
    (by rw [t3, Second_eq]; omega) (by rw [t3, Second_eq]; omega)
    (by rw [t3, Second_eq]; omega)
  rw [t3] at hf
  rw [run_concat, c1, c2, c3, hf]
  refine ⟨rfl, rfl, rfl, ?_⟩
  rw [Minute_eq, Second_eq]
  omega

/-- C6, witness: thirty minutes configured, two ticks, then the decrease key. -/
theorem C6_cancel_mid_countdown_witness :
    (run (idleAt (30 * Minute))
        (Msg.startTimer :: List.replicate 2 Msg.tick ++ [Msg.key "left"])).m.ticker = false
      ∧ (run (idleAt (30 * Minute))
          (Msg.startTimer :: List.replicate 2 Msg.tick ++ [Msg.key "left"])).m.remaining
          = (30 * Minute - (2 : Nat) * Second) / (5 * Minute) * (5 * Minute)
      ∧ (run (idleAt (30 * Minute))
          (Msg.startTimer :: List.replicate 2 Msg.tick ++ [Msg.key "left"])).m.duration
          = (30 * Minute - (2 : Nat) * Second) / (5 * Minute) * (5 * Minute)
      ∧ (run (idleAt (30 * Minute))
          (Msg.startTimer :: List.replicate 2 Msg.tick ++ [Msg.key "left"])).m.remaining
          < 30 * Minute :=
  C6_cancel_mid_countdown (idleAt (30 * Minute)) (30 * Minute) 2 "left" (Or.inl rfl) rfl rfl rfl
    (by decide) (by decide) (by decide) (by decide) (by decide)

/-- C7, counterexample.  From `initialModel()` (25:00 configured) the idle-expiry message
and 1500 ticks leave the countdown running at 0:00; the next tick stops the ticker, and the
resulting idle state has `duration` and `remaining` 0:00, not 25:00. -/
theorem C7_counterexample :
    initialWorld.m.duration = 25 * Minute
      ∧ (run initialWorld (Msg.startTimer :: List.replicate 1500 Msg.tick)).m.ticker = true
      ∧ (run initialWorld (Msg.startTimer :: List.replicate 1501 Msg.tick)).m.ticker = false
      ∧ (run initialWorld (Msg.startTimer :: List.replicate 1501 Msg.tick)).m.duration = 0
      ∧ (run initialWorld (Msg.startTimer :: List.replicate 1501 Msg.tick)).m.remaining = 0 := by
  obtain ⟨t1, t2, t3⟩ := run_start_ticks (w := initialWorld) (D := 25 * Minute) (k := 1500)
    rfl rfl (by decide) (by decide) (by decide) (by decide)
  have hz : (run initialWorld (Msg.startTimer :: List.replicate 1500 Msg.tick)).m.remaining
      = 0 := by rw [t2]; decide
  have hz' : (run initialWorld (Msg.startTimer :: List.replicate 1500 Msg.tick)).m.duration
      = 0 := by rw [t3]; decide
  obtain ⟨e1, e2, e3, _⟩ := Update_tick_done t1 hz.le
  have hn : (1501 : Nat) = 1500 + 1 := rfl
  have e : run initialWorld (Msg.startTimer :: List.replicate 1501 Msg.tick)
      = (Update (run initialWorld (Msg.startTimer :: List.replicate 1500 Msg.tick)) Msg.tick).1 := by
    rw [hn, List.replicate_succ', ← List.cons_append, run_concat]
  refine ⟨rfl, t1, ?_, ?_, ?_⟩
  · rw [e, e3]
  · rw [e, e2, hz']
  · rw [e, e1, hz']

/-- C7, amended.  A completed countdown resets to zero: for every configured duration `D`
that is a positive multiple of five minutes, `D` being `n` seconds, starting from the
not-running state with `duration = remaining = D`, after a `startTimerMsg` the countdown
runs through the first `n` ticks, and the `(n+1)`-th tick stops the ticker; the resulting
idle state has `duration == 0` and `remaining == 0`. -/
theorem C7_completed_countdown (w : World) (D : Int) (n : Nat) (ht : w.m.ticker = false)
    (_hd : w.m.duration = D) (hr : w.m.remaining = D) (hD0 : 0 < D) (hD5 : 5 * Minute ∣ D)
    (hDi : IsInt64 D) (hn : D = n * Second) :
    (∀ k : Nat, k ≤ n →
        (run w (Msg.startTimer :: List.replicate k Msg.tick)).m.ticker = true)
      ∧ (run w (Msg.startTimer :: List.replicate (n + 1) Msg.tick)).m.ticker = false
      ∧ (run w (Msg.startTimer :: List.replicate (n + 1) Msg.tick)).m.duration = 0
      ∧ (run w (Msg.startTimer :: List.replicate (n + 1) Msg.tick)).m.remaining = 0 := by
  have hsec : Second ∣ D := by
    rw [Minute_eq] at hD5
    rw [Second_eq]
    omega
  have hn1 : 1 ≤ n := by
    rw [Second_eq] at hn
    omega
  obtain ⟨t1, t2, t3⟩ := run_start_ticks (k := n) ht hr hDi hsec hn1 hn.ge
  have hz : (run w (Msg.startTimer :: List.replicate n Msg.tick)).m.remaining = 0 := by
    rw [t2, hn]; ring
  have hz' : (run w (Msg.startTimer :: List.replicate n Msg.tick)).m.duration = 0 := by
    rw [t3, hn]; ring
  obtain ⟨e1, e2, e3, _⟩ := Update_tick_done t1 hz.le
  have e : run w (Msg.startTimer :: List.replicate (n + 1) Msg.tick)
      = (Update (run w (Msg.startTimer :: List.replicate n Msg.tick)) Msg.tick).1 := by
    rw [List.replicate_succ', ← List.cons_append, run_concat]
  refine ⟨fun k hk => ?_, ?_, ?_, ?_⟩
  · obtain ⟨u1, _, _, _⟩ := Update_start_idle ht
    have hk' : k ≤ n := hk
    rw [run_cons]
    exact (run_replicate_tick k (w := (Update w Msg.startTimer).1) (n := n)
      (Update_start_idle ht).2.2.1 (by rw [u1, hr, hn]) (by rw [u1, hr]; exact hDi) hk').1
  · rw [e, e3]
  · rw [e, e2, hz']
  · rw [e, e1, hz']

/-- C7, witness: five minutes configured, 300 seconds of countdown. -/
theorem C7_completed_countdown_witness :
    (∀ k : Nat, k ≤ 300 →
        (run (idleAt (5 * Minute)) (Msg.startTimer :: List.replicate k Msg.tick)).m.ticker
          = true)
      ∧ (run (idleAt (5 * Minute))
          (Msg.startTimer :: List.replicate (300 + 1) Msg.tick)).m.ticker = false
      ∧ (run (idleAt (5 * Minute))
          (Msg.startTimer :: List.replicate (300 + 1) Msg.tick)).m.duration = 0
      ∧ (run (idleAt (5 * Minute))
          (Msg.startTimer :: List.replicate (300 + 1) Msg.tick)).m.remaining = 0 :=
  C7_completed_countdown (idleAt (5 * Minute)) (5 * Minute) 300 rfl rfl rfl
    (by decide) (by decide) (by decide) (by decide)

/-! ## The sign of the rendered time -/

theorem digitChar_ne_minus : ∀ k : Nat, k < 10 → Nat.digitChar k ≠ '-' := by decide

theorem toDigitsCore_ne_minus (fuel : Nat) : ∀ (n : Nat) (ds : List Char),
    (∀ c ∈ ds, c ≠ '-') → ∀ c ∈ Nat.toDigitsCore 10 fuel n ds, c ≠ '-' := by
  induction fuel with
  | zero => intro n ds h; simpa [Nat.toDigitsCore] using h
  | succ fuel ih =>
    intro n ds h
    have hd : ∀ c ∈ Nat.digitChar (n % 10) :: ds, c ≠ '-' := by
      intro c hc
      rcases List.mem_cons.mp hc with rfl | hc
      · exact digitChar_ne_minus _ (Nat.mod_lt _ (by decide))
      · exact h c hc
    rw [Nat.toDigitsCore]
    split_ifs
    · exact hd
    · exact ih _ _ hd

theorem repr_ne_minus (n : Nat) : '-' ∉ (Nat.repr n).toList := by
  intro h
  exact toDigitsCore_ne_minus (n + 1) n [] (by simp) '-' (by simpa [Nat.repr, Nat.toDigits] using h) rfl

theorem sprintf02d_of_nonneg {n : Int} (h : 0 ≤ n) : '-' ∉ (sprintf02d n).toList := by
  unfold sprintf02d
  rw [if_neg (not_lt.mpr h)]
  split_ifs
  · simp only [String.toList, String.data_append, List.mem_append, not_or]
    exact ⟨by decide, repr_ne_minus _⟩
  · exact repr_ne_minus _

theorem sprintf02d_of_neg {n : Int} (h : n < 0) : '-' ∈ (sprintf02d n).toList := by
  unfold sprintf02d
  rw [if_pos h]
  simp only [String.toList, String.data_append]
  exact List.mem_append_left _ (by decide)

theorem f64toInt_nonneg {x : ℚ} (h : 0 ≤ x) : 0 ≤ f64toInt x := by
  unfold f64toInt
  rw [if_pos h]
  exact Int.floor_nonneg.mpr h

theorem Minutes_nonneg {d : Int} (h : 0 ≤ d) : 0 ≤ Minutes d := by
  unfold Minutes f64ofInt
  apply f64round_nonneg
  apply add_nonneg
  · exact f64round_nonneg (by exact_mod_cast Int.tdiv_nonneg h (by decide))
  · apply f64round_nonneg
    apply div_nonneg _ (by norm_num)
    apply f64round_nonneg
    exact_mod_cast Int.tmod_nonneg _ h

theorem Seconds_nonneg {d : Int} (h : 0 ≤ d) : 0 ≤ Seconds d := by
  unfold Seconds f64ofInt
  apply f64round_nonneg
  apply add_nonneg
  · exact f64round_nonneg (by exact_mod_cast Int.tdiv_nonneg h (by decide))
  · apply f64round_nonneg
    apply div_nonneg _ (by norm_num)
    apply f64round_nonneg
    exact_mod_cast Int.tmod_nonneg _ h

/-- The rendering of a non-negative duration has no minus sign. -/
theorem formatTime_of_nonneg {d : Int} (h : 0 ≤ d) : '-' ∉ (formatTime d).toList := by
  unfold formatTime
  simp only [String.toList, String.data_append, List.mem_append, not_or]
  refine ⟨⟨sprintf02d_of_nonneg (f64toInt_nonneg (Minutes_nonneg h)), by decide⟩, ?_⟩
  exact sprintf02d_of_nonneg (Int.tmod_nonneg _ (f64toInt_nonneg (Seconds_nonneg h)))

/-- The rendering of a duration of minus one minute or less starts with a minus sign. -/
theorem formatTime_of_le_neg_minute {d : Int} (h : d ≤ -Minute) :
    '-' ∈ (formatTime d).toList := by
  unfold formatTime
  simp only [String.toList, String.data_append]
  apply List.mem_append_left
  apply List.mem_append_left
  apply sprintf02d_of_neg
  have e : Int.tdiv d Minute = -((-d) / Minute) := by
    rw [← Int.tdiv_eq_ediv (by rw [Minute_eq] at h; omega) (by decide), Int.neg_tdiv, neg_neg]
  have hq : Int.tdiv d Minute ≤ -1 := by
    rw [e, Minute_eq]
    rw [Minute_eq] at h
    omega
  have hr : Int.tmod d Minute ≤ 0 := by
    rw [Int.tmod_def, e, Minute_eq]
    omega
  have hM : Minutes d ≤ -1 := by
    unfold Minutes f64ofInt
    have e := f64round_intCast (-1) (by norm_num)
    have h1 : f64round ((Int.tdiv d Minute : Int) : ℚ) ≤ ((-1 : Int) : ℚ) := by
      rw [← e]
      exact f64round_monotone (by exact_mod_cast hq)
    have h2 : f64round (f64round ((Int.tmod d Minute : Int) : ℚ) / 60000000000) ≤ 0 := by
      apply f64round_nonpos
      apply div_nonpos_of_nonpos_of_nonneg _ (by norm_num)
      exact f64round_nonpos (by exact_mod_cast hr)
    have := f64round_monotone (x := f64round ((Int.tdiv d Minute : Int) : ℚ)
      + f64round (f64round ((Int.tmod d Minute : Int) : ℚ) / 60000000000))
      (y := ((-1 : Int) : ℚ)) (by push_cast at h1 ⊢; linarith)
    rw [e] at this
    exact_mod_cast this
  unfold f64toInt
  rw [if_neg (by linarith)]
  have : ⌈Minutes d⌉ ≤ -1 := Int.ceil_le.mpr (by exact_mod_cast hM)
  omega

/-! ## Invariants of the reachable states -/

theorem Update_remaining_eq_duration {w : World} (msg : Msg)
    (h : w.m.remaining = w.m.duration) :
    (Update w msg).1.m.remaining = (Update w msg).1.m.duration := by
  cases msg with
  | other => exact h
  | startTimer =>
    by_cases ht : w.m.ticker = false
    · obtain ⟨e1, e2, _⟩ := Update_start_idle ht
      rw [e1, e2, h]
    · have : (Update w Msg.startTimer).1 = w := by simp [Update, ht]
      rw [this]; exact h
  | tick =>
    by_cases ht : w.m.ticker = true
    · by_cases hr : 0 < w.m.remaining
      · obtain ⟨e1, e2, _⟩ := Update_tick_running ht hr
        rw [e1, e2]
      · obtain ⟨e1, e2, _⟩ := Update_tick_done ht (not_lt.mp hr)
        rw [e1, e2]
    · have : (Update w Msg.tick).1 = w := by simp [Update, ht]
      rw [this]; exact h
  | key s =>
    by_cases hq : s = "ctrl+c" ∨ s = "q"
    · rw [Update_key_quit hq]; exact h
    by_cases hl : s = "left"
    · by_cases ht : w.m.ticker = true
      · obtain ⟨e1, e2, _⟩ := Update_key_running (Or.inl hl) ht
        rw [e1, e2]
      · subst hl
        exact (Update_left_idle (Bool.eq_false_iff.mpr ht)).2.1
    by_cases hr : s = "right"
    · by_cases ht : w.m.ticker = true
      · obtain ⟨e1, e2, _⟩ := Update_key_running (Or.inr hr) ht
        rw [e1, e2]
      · subst hr
        exact (Update_right_idle (Bool.eq_false_iff.mpr ht)).2.1
    · rw [Update_key_other hq hl hr]; exact h

/-- Along every run `remaining` stays equal to `duration` once it is. -/
theorem run_remaining_eq_duration (msgs : List Msg) : ∀ {w : World},
    w.m.remaining = w.m.duration → (run w msgs).m.remaining = (run w msgs).m.duration := by
  induction msgs with
  | nil => intro w h; exact h
  | cons msg msgs ih =>
    intro w h
    rw [run_cons]
    exact ih (Update_remaining_eq_duration msg h)

/-- C8, counterexample.  After 30744569 presses of the increase key from `initialModel()`
the duration has wrapped around: `remaining` is negative and its rendering has a minus
sign. -/
theorem C8_counterexample :
    (run initialWorld (List.replicate 30744569 rightKey)).m.remaining < 0
      ∧ '-' ∈ (formatTime
          (run initialWorld (List.replicate 30744569 rightKey)).m.remaining).toList := by
  rw [run_right_overflow.2.1]
  exact ⟨by decide, formatTime_of_le_neg_minute (by decide)⟩

/-- C8, amended.  In every state reachable from `initialModel()` by a finite sequence of
`Update` events (key presses, `startTimerMsg`, `tickMsg`, others, in any order) in which the
increase key occurs at most 30744568 times, `remaining` is a non-negative whole number of
seconds, hence `formatTime(remaining)` contains no minus sign. -/
theorem C8_remaining_nonneg (w0 : World) (h0 : w0.m = initialModel) (msgs : List Msg)
    (hc : rightCount msgs ≤ 30744568) :
    0 ≤ (run w0 msgs).m.remaining
      ∧ Second ∣ (run w0 msgs).m.remaining
      ∧ '-' ∉ (formatTime (run w0 msgs).m.remaining).toList := by
  obtain ⟨t1, t2, t3, _, _⟩ := Tame_reachable h0 msgs hc
  rw [t1]
  exact ⟨t2, t3, formatTime_of_nonneg t2⟩

/-- C8, witness: an increase, the idle-expiry, two ticks and a decrease. -/
theorem C8_remaining_nonneg_witness :
    0 ≤ (run initialWorld [rightKey, Msg.startTimer, Msg.tick, Msg.tick, leftKey]).m.remaining
      ∧ Second ∣
          (run initialWorld [rightKey, Msg.startTimer, Msg.tick, Msg.tick, leftKey]).m.remaining
      ∧ '-' ∉ (formatTime
          (run initialWorld
            [rightKey, Msg.startTimer, Msg.tick, Msg.tick, leftKey]).m.remaining).toList :=
  C8_remaining_nonneg initialWorld rfl [rightKey, Msg.startTimer, Msg.tick, Msg.tick, leftKey]
    (by decide)

/-- C9.  In every state reachable from `initialModel()` by any finite sequence of `Update`
events, whenever the machine is not running (`ticker == nil`), `remaining == duration`. -/
theorem C9_idle_remaining_eq_duration (w0 : World) (h0 : w0.m = initialModel)
    (msgs : List Msg) (_ht : (run w0 msgs).m.ticker = false) :
    (run w0 msgs).m.remaining = (run w0 msgs).m.duration :=
  run_remaining_eq_duration msgs (by rw [h0]; rfl)

/-- C9, witness: a decrease followed by an increase. -/
theorem C9_idle_remaining_eq_duration_witness :
    (run initialWorld [leftKey, rightKey]).m.remaining
      = (run initialWorld [leftKey, rightKey]).m.duration :=
  C9_idle_remaining_eq_duration initialWorld rfl [leftKey, rightKey]
    (run_keys_ticker [leftKey, rightKey] rfl (by decide))

/-- C10, counterexample.  One tick into the countdown from `initialModel()` the duration
is 24:59, which is not a multiple of five minutes; and after 30744569 presses of the
increase key the duration is negative while no countdown runs. -/
theorem C10_counterexample :
    (run initialWorld [Msg.startTimer, Msg.tick]).m.duration = 1499 * Second
      ∧ ¬ (5 * Minute ∣ (run initialWorld [Msg.startTimer, Msg.tick]).m.duration)
      ∧ (run initialWorld (List.replicate 30744569 rightKey)).m.ticker = false
      ∧ (run initialWorld (List.replicate 30744569 rightKey)).m.duration < 0 := by
  obtain ⟨_, _, t3⟩ := run_start_ticks (w := initialWorld) (D := 25 * Minute) (k := 1)
    rfl rfl (by decide) (by decide) (by decide) (by decide)
  have hd : (run initialWorld [Msg.startTimer, Msg.tick]).m.duration = 1499 * Second := by
    have e : run initialWorld [Msg.startTimer, Msg.tick]
        = run initialWorld (Msg.startTimer :: List.replicate 1 Msg.tick) := rfl
    rw [e, t3]
    decide
  rw [hd, run_right_overflow.1]
  exact ⟨rfl, by decide, run_right_overflow.2.2, by decide⟩

/-- C10, amended.  In every state reachable from `initialModel()` by a finite sequence of
`Update` events in which the increase key occurs at most 30744568 times, `duration` is a
non-negative whole number of seconds, and whenever no countdown is running
(`ticker == nil`) it is a non-negative exact multiple of five minutes. -/
theorem C10_duration_multiple_when_idle (w0 : World) (h0 : w0.m = initialModel)
    (msgs : List Msg) (hc : rightCount msgs ≤ 30744568) :
    0 ≤ (run w0 msgs).m.duration
      ∧ Second ∣ (run w0 msgs).m.duration
      ∧ ((run w0 msgs).m.ticker = false → 5 * Minute ∣ (run w0 msgs).m.duration) := by
  obtain ⟨_, t2, t3, _, t5⟩ := Tame_reachable h0 msgs hc
  exact ⟨t2, t3, t5⟩

/-- C10, witness: a countdown of two ticks cancelled by the increase key. -/
theorem C10_duration_multiple_when_idle_witness :
    0 ≤ (run initialWorld [Msg.startTimer, Msg.tick, Msg.tick, rightKey]).m.duration
      ∧ Second ∣ (run initialWorld [Msg.startTimer, Msg.tick, Msg.tick, rightKey]).m.duration
      ∧ ((run initialWorld [Msg.startTimer, Msg.tick, Msg.tick, rightKey]).m.ticker = false →
          5 * Minute ∣
            (run initialWorld [Msg.startTimer, Msg.tick, Msg.tick, rightKey]).m.duration) :=
  C10_duration_multiple_when_idle initialWorld rfl
    [Msg.startTimer, Msg.tick, Msg.tick, rightKey] (by decide)

/-! ## The timer messages -/

/-- C11.  Idle-expiry starts the countdown: for every state with `ticker == nil`, `Update`
on a `startTimerMsg` yields a state with `ticker != nil` and unchanged `duration` and
`remaining`, and returns the command that delivers a `tickMsg` at once (the closure
returns `tickMsg(time.Now())` without sleeping). -/
theorem C11_idle_expiry_starts (w : World) (ht : w.m.ticker = false) :
    (Update w Msg.startTimer).1.m.ticker = true
      ∧ (Update w Msg.startTimer).1.m.duration = w.m.duration
      ∧ (Update w Msg.startTimer).1.m.remaining = w.m.remaining
      ∧ (Update w Msg.startTimer).2 = Cmd.tick := by
  obtain ⟨e1, e2, e3, e4⟩ := Update_start_idle ht
  exact ⟨e3, e2, e1, e4⟩

/-- C11, witness: the idle-expiry message at thirty minutes. -/
theorem C11_idle_expiry_starts_witness :
    (Update (idleAt (30 * Minute)) Msg.startTimer).1.m.ticker = true
      ∧ (Update (idleAt (30 * Minute)) Msg.startTimer).1.m.duration
          = (idleAt (30 * Minute)).m.duration
      ∧ (Update (idleAt (30 * Minute)) Msg.startTimer).1.m.remaining
          = (idleAt (30 * Minute)).m.remaining
      ∧ (Update (idleAt (30 * Minute)) Msg.startTimer).2 = Cmd.tick :=
  C11_idle_expiry_starts (idleAt (30 * Minute)) rfl

/-- C12.  Stale timer events never mutate state: for every state with `ticker == nil`,
`Update` on a `tickMsg` leaves the whole state (duration, remaining, ticker and timers)
unchanged and returns no command; for every state with `ticker != nil`, `Update` on a
`startTimerMsg` leaves the whole state unchanged and returns no command. -/
theorem C12_stale_events_ignored (w1 w2 : World) (h1 : w1.m.ticker = false)
    (h2 : w2.m.ticker = true) :
    Update w1 Msg.tick = (w1, Cmd.none) ∧ Update w2 Msg.startTimer = (w2, Cmd.none) := by
  constructor
  · simp [Update, h1]
  · simp [Update, h2]

/-- C12, witness: a tick at the idle start state, and an idle-expiry message during a
countdown. -/
theorem C12_stale_events_ignored_witness :
    Update initialWorld Msg.tick = (initialWorld, Cmd.none)
      ∧ Update (Update initialWorld Msg.startTimer).1 Msg.startTimer
          = ((Update initialWorld Msg.startTimer).1, Cmd.none) :=
  C12_stale_events_ignored initialWorld (Update initialWorld Msg.startTimer).1 rfl rfl

/-! ## The idle-expiry timers -/

theorem Update_timer_pending (w : World) (msg : Msg) :
    ((Update w msg).1.m.timer = w.m.timer ∧ (Update w msg).1.pending = w.pending)
      ∨ ((Update w msg).1.m.timer = some w.fresh
          ∧ (Update w msg).1.pending = w.fresh ::
              (match w.m.timer with
                | some t => w.pending.erase t
                | none => w.pending)) := by
  cases msg with
  | other => left; exact ⟨rfl, rfl⟩
  | startTimer =>
    left
    by_cases ht : w.m.ticker = false <;> simp [Update, ht, World.onModel]
  | tick =>
    left
    by_cases ht : w.m.ticker = true
    · by_cases hr : 0 < w.m.remaining <;> simp [Update, ht, hr, World.onModel]
    · simp [Update, ht]
  | key s =>
    by_cases hq : s = "ctrl+c" ∨ s = "q"
    · left; rw [Update_key_quit hq]; exact ⟨rfl, rfl⟩
    by_cases hl : s = "left"
    · right
      subst hl
      by_cases ht : w.m.ticker = true
      · simp [Update, ht, World.onModel, resetTimer, formatDuration]
      · by_cases hd : w.m.duration > 5 * Minute <;>
          simp [Update, ht, hd, World.onModel, resetTimer, formatDuration]
    by_cases hr : s = "right"
    · right
      subst hr
      by_cases ht : w.m.ticker = true <;>
        simp [Update, ht, World.onModel, resetTimer, formatDuration]
    · left; rw [Update_key_other hq hl hr]; exact ⟨rfl, rfl⟩

/-- When the only pending timer is the one stored in the model, every message keeps it
so: the re-arm of `resetTimer` stops the stored timer before it schedules the next. -/
theorem Update_pending_le_one (w : World) (msg : Msg)
    (h : w.pending = [] ∨ ∃ t, w.m.timer = some t ∧ w.pending = [t]) :
    (Update w msg).1.pending = []
      ∨ ∃ t, (Update w msg).1.m.timer = some t ∧ (Update w msg).1.pending = [t] := by
  rcases Update_timer_pending w msg with ⟨e1, e2⟩ | ⟨e1, e2⟩
  · rw [e1, e2]; exact h
  · right
    refine ⟨w.fresh, e1, ?_⟩
    rw [e2]
    rcases h with h | ⟨t, h1, h2⟩
    · rw [h]
      cases w.m.timer <;> simp
    · rw [h1, h2]
      simp

theorem run_pending_le_one (msgs : List Msg) : ∀ (w : World),
    (w.pending = [] ∨ ∃ t, w.m.timer = some t ∧ w.pending = [t]) →
    (run w msgs).pending.length ≤ 1 := by
  induction msgs with
  | nil =>
    intro w h
    rcases h with h | ⟨t, _, h⟩ <;> simp [run_nil, h]
  | cons msg msgs ih =>
    intro w h
    rw [run_cons]
    exact ih _ (Update_pending_le_one w msg h)

/-- The decrease key while no countdown runs re-arms the idle-expiry timer. -/
theorem Update_left_idle_pending {w : World} (ht : w.m.ticker = false) :
    (Update w leftKey).1.pending = w.fresh ::
      (match w.m.timer with
        | some t => w.pending.erase t
        | none => w.pending) := by
  by_cases hd : w.m.duration > 5 * Minute <;>
    simp [leftKey, Update, ht, hd, World.onModel, resetTimer, formatDuration]

/-- C13, the failing execution.  At program start `Init` has scheduled the timer with
handle 0 without storing it in the model; the first decrease key therefore stops nothing
and schedules the timer with handle 1: two idle-expiry timers are pending.  Without `Init`
the same key event leaves one. -/
theorem C13_orphan_timer :
    startWorld.m.timer = none
      ∧ startWorld.pending = [0]
      ∧ (run startWorld [leftKey]).pending = [1, 0]
      ∧ (run startWorld [leftKey]).pending.length = 2
      ∧ (run initialWorld [leftKey]).pending.length = 1 := by
  have e : (run startWorld [leftKey]).pending = [1, 0] :=
    Update_left_idle_pending (w := startWorld) rfl
  have e' : (run initialWorld [leftKey]).pending = [0] :=
    Update_left_idle_pending (w := initialWorld) rfl
  exact ⟨rfl, rfl, e, by rw [e]; rfl, by rw [e']; rfl⟩

/-- C14, counterexample.  After `initialModel()` and `Init` an idle-expiry timer is
pending, and with no key event its firing starts the countdown. -/
theorem C14_counterexample :
    startWorld.pending ≠ []
      ∧ (fire startWorld 0).1.m.ticker = true
      ∧ (fire startWorld 0).2 = Cmd.tick := by
  refine ⟨by decide, ?_, ?_⟩ <;>
    simp [fire, startWorld, Init, resetTimer, initialWorld, Update, initialModel,
      World.onModel]

/-- C14, amended.  The program starts armed: after `initialModel()` and `Init`,
`duration == remaining == 25` minutes, `ticker == nil`, and exactly one auto-start
(idle-expiry) is pending, the one scheduled by `Init`; with no key event its firing
delivers a `startTimerMsg`, which leaves `duration` and `remaining` at 25 minutes, sets
the ticker and returns the tick command, so the countdown begins. -/
theorem C14_program_start :
    startWorld.m.duration = 25 * Minute
      ∧ startWorld.m.remaining = 25 * Minute
      ∧ startWorld.m.ticker = false
      ∧ startWorld.pending = [0]
      ∧ (fire startWorld 0).1.pending = []
      ∧ (fire startWorld 0).1.m.duration = 25 * Minute
      ∧ (fire startWorld 0).1.m.remaining = 25 * Minute
      ∧ (fire startWorld 0).1.m.ticker = true
      ∧ (fire startWorld 0).2 = Cmd.tick := by
  have hf : fire startWorld 0
      = Update { startWorld with pending := startWorld.pending.erase 0 } Msg.startTimer := by
    unfold fire
    rw [if_pos (by decide)]
  obtain ⟨e1, e2, e3, e4⟩ := Update_start_idle
    (w := { startWorld with pending := startWorld.pending.erase 0 }) rfl
  refine ⟨rfl, rfl, rfl, rfl, ?_, ?_, ?_, ?_, ?_⟩
  · rw [hf]; simp [Update, World.onModel, startWorld, Init, resetTimer, initialWorld, initialModel]
  · rw [hf, e2]; rfl
  · rw [hf, e1]; rfl
  · rw [hf, e3]
  · rw [hf, e4]

/-! ## Normalising the duration -/

/-- C16.  For every non-negative whole-second duration `d` (an `int64`),
`formatDuration` sets the duration to the largest multiple of five minutes that is `≤ d`
(so `0 ≤ d - duration' < 5` minutes), leaves `remaining`, the ticker and the timer
unchanged, and applying it a second time changes nothing. -/
theorem C16_formatDuration_rounds_down (m : model) (h0 : 0 ≤ m.duration)
    (hi : IsInt64 m.duration) (hs : Second ∣ m.duration) :
    5 * Minute ∣ (formatDuration m).duration
      ∧ (formatDuration m).duration ≤ m.duration
      ∧ m.duration - (formatDuration m).duration < 5 * Minute
      ∧ (∀ k : Int, 5 * Minute ∣ k → k ≤ m.duration → k ≤ (formatDuration m).duration)
      ∧ (formatDuration m).remaining = m.remaining
      ∧ (formatDuration m).ticker = m.ticker
      ∧ (formatDuration m).timer = m.timer
      ∧ formatDuration (formatDuration m) = formatDuration m := by
  have e := formatDuration_duration h0 hi.2 hs
  have hi' := hi
  unfold IsInt64 at hi'
  rw [Minute_eq] at e
  rw [Second_eq] at hs
  have e2 := formatDuration_duration (m := formatDuration m)
    (by rw [e]; omega) (by rw [e]; omega) (by rw [e, Second_eq]; omega)
  rw [Minute_eq] at e2 ⊢
  refine ⟨by rw [e]; omega, by rw [e]; omega, by rw [e]; omega, ?_, rfl, rfl, rfl, ?_⟩
  · intro k hk hle
    rw [e]
    omega
  · have hd : (formatDuration (formatDuration m)).duration = (formatDuration m).duration := by
      rw [e2, e]
      omega
    have hstruct : ∀ a b : model, a.duration = b.duration → a.remaining = b.remaining →
        a.timer = b.timer → a.ticker = b.ticker → a = b := by
      intro a b h1 h2 h3 h4
      cases a; cases b
      simp only [model.mk.injEq]
      exact ⟨h1, h2, h3, h4⟩
    exact hstruct _ _ hd rfl rfl rfl

/-- C16, witness: 29:58 is rounded down to 25:00. -/
theorem C16_formatDuration_rounds_down_witness :
    5 * Minute ∣ (formatDuration (idleAt (1798 * Second)).m).duration
      ∧ (formatDuration (idleAt (1798 * Second)).m).duration ≤ (idleAt (1798 * Second)).m.duration
      ∧ (idleAt (1798 * Second)).m.duration - (formatDuration (idleAt (1798 * Second)).m).duration
          < 5 * Minute
      ∧ (∀ k : Int, 5 * Minute ∣ k → k ≤ (idleAt (1798 * Second)).m.duration →
          k ≤ (formatDuration (idleAt (1798 * Second)).m).duration)
      ∧ (formatDuration (idleAt (1798 * Second)).m).remaining
          = (idleAt (1798 * Second)).m.remaining
      ∧ (formatDuration (idleAt (1798 * Second)).m).ticker = (idleAt (1798 * Second)).m.ticker
      ∧ (formatDuration (idleAt (1798 * Second)).m).timer = (idleAt (1798 * Second)).m.timer
      ∧ formatDuration (formatDuration (idleAt (1798 * Second)).m)
          = formatDuration (idleAt (1798 * Second)).m :=
  C16_formatDuration_rounds_down (idleAt (1798 * Second)).m (by decide) (by decide) (by decide)

/-! ## The duration follows the time left -/

/-- C19.  In every state reachable from `initialModel()` by any finite sequence of `Update`
events, `remaining == duration`, also while the countdown runs.  In such a state with the
ticker set and time left, the decrementing tick writes the new `remaining` to `duration`
as well, so the configured duration is not kept; in such a state with the ticker set and
`remaining` at 0, the final tick stops the ticker with both `duration` and `remaining`
at 0. -/
theorem C19_duration_follows_remaining (w0 : World) (h0 : w0.m = initialModel)
    (msgs run1 run2 : List Msg)
    (t1 : (run w0 run1).m.ticker = true) (r1 : 0 < (run w0 run1).m.remaining)
    (t2 : (run w0 run2).m.ticker = true) (r2 : (run w0 run2).m.remaining = 0) :
    (run w0 msgs).m.remaining = (run w0 msgs).m.duration
      ∧ (Update (run w0 run1) Msg.tick).1.m.remaining
          = wrap64 ((run w0 run1).m.remaining - Second)
      ∧ (Update (run w0 run1) Msg.tick).1.m.duration
          = (Update (run w0 run1) Msg.tick).1.m.remaining
      ∧ (Update (run w0 run1) Msg.tick).1.m.ticker = true
      ∧ (Update (run w0 run2) Msg.tick).1.m.ticker = false
      ∧ (Update (run w0 run2) Msg.tick).1.m.duration = 0
      ∧ (Update (run w0 run2) Msg.tick).1.m.remaining = 0 := by
  have hinv : ∀ l : List Msg, (run w0 l).m.remaining = (run w0 l).m.duration :=
    fun l => run_remaining_eq_duration l (by rw [h0]; rfl)
  obtain ⟨e1, e2, e3, _⟩ := Update_tick_running t1 r1
  obtain ⟨d1, d2, d3, _⟩ := Update_tick_done t2 r2.le
  rw [hinv run2] at r2
  exact ⟨hinv msgs, e1, by rw [e1, e2], e3, d3, by rw [d2, r2], by rw [d1, r2]⟩

/-- C19, witness: the states one tick and 1500 ticks into the countdown from
`initialModel()`. -/
theorem C19_duration_follows_remaining_witness :
    (run initialWorld [rightKey, Msg.startTimer, Msg.tick]).m.remaining
        = (run initialWorld [rightKey, Msg.startTimer, Msg.tick]).m.duration
      ∧ (Update (run initialWorld (Msg.startTimer :: List.replicate 1 Msg.tick))
            Msg.tick).1.m.remaining
          = wrap64 ((run initialWorld
              (Msg.startTimer :: List.replicate 1 Msg.tick)).m.remaining - Second)
      ∧ (Update (run initialWorld (Msg.startTimer :: List.replicate 1 Msg.tick))
            Msg.tick).1.m.duration
          = (Update (run initialWorld (Msg.startTimer :: List.replicate 1 Msg.tick))
              Msg.tick).1.m.remaining
      ∧ (Update (run initialWorld (Msg.startTimer :: List.replicate 1 Msg.tick))
            Msg.tick).1.m.ticker = true
      ∧ (Update (run initialWorld (Msg.startTimer :: List.replicate 1500 Msg.tick))
            Msg.tick).1.m.ticker = false
      ∧ (Update (run initialWorld (Msg.startTimer :: List.replicate 1500 Msg.tick))
            Msg.tick).1.m.duration = 0
      ∧ (Update (run initialWorld (Msg.startTimer :: List.replicate 1500 Msg.tick))
            Msg.tick).1.m.remaining = 0 :=
  C19_duration_follows_remaining initialWorld rfl [rightKey, Msg.startTimer, Msg.tick]
    (Msg.startTimer :: List.replicate 1 Msg.tick)
    (Msg.startTimer :: List.replicate 1500 Msg.tick)
    (run_start_ticks (w := initialWorld) (D := 25 * Minute) (k := 1) rfl rfl (by decide)
      (by decide) (by decide) (by decide)).1
    (by
      rw [(run_start_ticks (w := initialWorld) (D := 25 * Minute) (k := 1) rfl rfl (by decide)
        (by decide) (by decide) (by decide)).2.1]
      decide)
    (run_start_ticks (w := initialWorld) (D := 25 * Minute) (k := 1500) rfl rfl (by decide)
      (by decide) (by decide) (by decide)).1
    (by
      rw [(run_start_ticks (w := initialWorld) (D := 25 * Minute) (k := 1500) rfl rfl
        (by decide) (by decide) (by decide) (by decide)).2.1]
      decide)

/-! ## The ruler row -/

theorem width_eq : width = 50 := rfl

theorem rulerLoop_spec (minutes : Int) : ∀ (fuel i : Nat), i + fuel = 50 →
    (rulerLoop minutes fuel i).length = fuel
      ∧ ∀ j : Nat, j < fuel → (rulerLoop minutes fuel i)[j]?
          = some (Piece.styled (columnStyle ((i + j : Nat) : Int))
              (if Int.tmod (minutes - width / 2 + ((i + j : Nat) : Int)) 5 = 0
                then "|" else "'")) := by
  intro fuel
  induction fuel with
  | zero => intro i _; exact ⟨rfl, fun j hj => absurd hj (Nat.not_lt_zero j)⟩
  | succ fuel ih =>
    intro i hi
    have hlt : (i : Int) < width := by rw [width_eq]; omega
    obtain ⟨hl, hg⟩ := ih (i + 1) (by omega)
    have hc : ((i : Int) + 1) = ((i + 1 : Nat) : Int) := by push_cast; rfl
    rw [rulerLoop, if_pos hlt, hc]
    refine ⟨by rw [List.length_cons, hl], fun j hj => ?_⟩
    cases j with
    | zero => simp
    | succ j =>
      rw [List.getElem?_cons_succ, hg j (by omega)]
      have : i + 1 + j = i + (j + 1) := by omega
      rw [this]

theorem columnStyle_spec (i : Nat) (hi : i < 50) :
    (|(i : Int) - 25| = 0 → columnStyle i = Style.selected)
      ∧ (1 ≤ |(i : Int) - 25| → |(i : Int) - 25| ≤ 10 → columnStyle i = Style.light)
      ∧ (11 ≤ |(i : Int) - 25| → |(i : Int) - 25| ≤ 20 → columnStyle i = Style.medium)
      ∧ (20 < |(i : Int) - 25| → columnStyle i = Style.dark) := by
  have habs : abs ((i : Int) - width / 2) = |(i : Int) - 25| := by
    unfold abs
    rw [width_eq]
    split_ifs with h
    · rw [abs_of_neg (by omega)]; norm_num
    · rw [abs_of_nonneg (by omega)]; norm_num
  unfold columnStyle
  rw [habs]
  refine ⟨fun h => ?_, fun h1 h2 => ?_, fun h1 h2 => ?_, fun h => ?_⟩
  · rw [if_pos h]
  · rw [if_neg (by omega), if_pos h2]
  · rw [if_neg (by omega), if_neg (by omega), if_pos h2]
  · rw [if_neg (by omega), if_neg (by omega), if_neg (by omega)]

/-- C17.  For every state, with `m` the whole-minute count `int(duration.Minutes())`,
`renderTimeline` writes the ruler row and then a newline; the ruler row consists of
exactly 50 marks, and at every column `i` in `0..49` the mark is
the strong mark `|` if and only if `m - 25 + i` is a multiple of 5, and the weak mark
otherwise; its style is `selected` when `|i - 25| = 0`, `light` when
`1 ≤ |i - 25| ≤ 10`, `medium` when `11 ≤ |i - 25| ≤ 20`, and `dark` otherwise. -/
theorem C17_ruler (m : model) (i : Nat) (hi : i < 50) :
    renderTimeline m = rulerRow (f64toInt (Minutes m.duration))
        ++ (Piece.plain "\n" :: (labelRow (f64toInt (Minutes m.duration))
            ++ [Piece.plain "\n"] ++ arrowRow))
      ∧ (rulerRow (f64toInt (Minutes m.duration))).length = 50
      ∧ (rulerRow (f64toInt (Minutes m.duration)))[i]?
          = some (Piece.styled (columnStyle i)
              (if 5 ∣ f64toInt (Minutes m.duration) - 25 + i then "|" else "'"))
      ∧ (|(i : Int) - 25| = 0 → columnStyle i = Style.selected)
      ∧ (1 ≤ |(i : Int) - 25| → |(i : Int) - 25| ≤ 10 → columnStyle i = Style.light)
      ∧ (11 ≤ |(i : Int) - 25| → |(i : Int) - 25| ≤ 20 → columnStyle i = Style.medium)
      ∧ (20 < |(i : Int) - 25| → columnStyle i = Style.dark) := by
  obtain ⟨hl, hg⟩ := rulerLoop_spec (f64toInt (Minutes m.duration)) 50 0 rfl
  refine ⟨?_, hl, ?_, columnStyle_spec i hi⟩
  · simp [renderTimeline]
  · have := hg i hi
    simp only [Nat.zero_add] at this
    have hw : width / 2 = 25 := by decide
    rw [hw] at this
    refine Eq.trans this ?_
    congr 2
    by_cases hd : 5 ∣ f64toInt (Minutes m.duration) - 25 + (i : Int)
    · rw [if_pos hd, if_pos (Int.tmod_eq_zero_of_dvd hd)]
    · rw [if_neg hd, if_neg (fun h => hd (Int.dvd_of_tmod_eq_zero h))]

/-- C17, witness: column 30 of the ruler at the start state. -/
theorem C17_ruler_witness :
    renderTimeline initialModel = rulerRow (f64toInt (Minutes initialModel.duration))
        ++ (Piece.plain "\n" :: (labelRow (f64toInt (Minutes initialModel.duration))
            ++ [Piece.plain "\n"] ++ arrowRow))
      ∧ (rulerRow (f64toInt (Minutes initialModel.duration))).length = 50
      ∧ (rulerRow (f64toInt (Minutes initialModel.duration)))[30]?
          = some (Piece.styled (columnStyle (30 : Nat))
              (if 5 ∣ f64toInt (Minutes initialModel.duration) - 25 + (30 : Nat)
                then "|" else "'"))
      ∧ (|((30 : Nat) : Int) - 25| = 0 → columnStyle (30 : Nat) = Style.selected)
      ∧ (1 ≤ |((30 : Nat) : Int) - 25| → |((30 : Nat) : Int) - 25| ≤ 10 →
          columnStyle (30 : Nat) = Style.light)
      ∧ (11 ≤ |((30 : Nat) : Int) - 25| → |((30 : Nat) : Int) - 25| ≤ 20 →
          columnStyle (30 : Nat) = Style.medium)
      ∧ (20 < |((30 : Nat) : Int) - 25| → columnStyle (30 : Nat) = Style.dark) :=
  C17_ruler initialModel 30 (by decide)

/-! ## Decimal digits -/

theorem digitChar_facts : ∀ k : Nat, k < 10 →
    digitValue (Nat.digitChar k) = some k ∧ (Nat.digitChar k).utf8Size = 1
      ∧ Nat.digitChar k ≠ ':' ∧ Nat.digitChar k ≠ '-' ∧ Nat.digitChar k ≠ ' ' := by
  decide

theorem toDigitsCore_forall (P : Char → Prop) (hP : ∀ k : Nat, k < 10 → P (Nat.digitChar k))
    (fuel : Nat) : ∀ (n : Nat) (ds : List Char),
    (∀ c ∈ ds, P c) → ∀ c ∈ Nat.toDigitsCore 10 fuel n ds, P c := by
  induction fuel with
  | zero => intro n ds h; simpa [Nat.toDigitsCore] using h
  | succ fuel ih =>
    intro n ds h
    have hd : ∀ c ∈ Nat.digitChar (n % 10) :: ds, P c := by
      intro c hc
      rcases List.mem_cons.mp hc with rfl | hc
      · exact hP _ (Nat.mod_lt _ (by decide))
      · exact h c hc
    rw [Nat.toDigitsCore]
    split_ifs
    · exact hd
    · exact ih _ _ hd

theorem repr_forall (P : Char → Prop) (hP : ∀ k : Nat, k < 10 → P (Nat.digitChar k))
    (n : Nat) : ∀ c ∈ (Nat.repr n).toList, P c := by
  intro c hc
  exact toDigitsCore_forall P hP (n + 1) n [] (by simp) c
    (by simpa [Nat.repr, Nat.toDigits] using hc)

theorem readDigits_cons {c : Char} {v : Nat} (h : digitValue c = some v) (cs : List Char)
    (acc : Nat) : readDigits (c :: cs) acc = readDigits cs (acc * 10 + v) := by
  simp [readDigits, h]

/-- The digits written for `n` read back as `n`, and there are as many as `n` needs. -/
theorem toDigitsCore_read (fuel : Nat) : ∀ (n : Nat) (ds : List Char), n < fuel →
    ∃ L : List Char, Nat.toDigitsCore 10 fuel n ds = L ++ ds ∧ L ≠ []
      ∧ (∀ (acc : Nat) (rest : List Char),
          readDigits (L ++ rest) acc = readDigits rest (acc * 10 ^ L.length + n))
      ∧ n < 10 ^ L.length ∧ (10 ≤ n → 2 ≤ L.length) := by
  induction fuel with
  | zero => intro n ds h; exact absurd h (Nat.not_lt_zero n)
  | succ fuel ih =>
    intro n ds h
    have hv : digitValue (Nat.digitChar (n % 10)) = some (n % 10) :=
      (digitChar_facts _ (Nat.mod_lt _ (by decide))).1
    rw [Nat.toDigitsCore]
    split_ifs with h0
    · refine ⟨[Nat.digitChar (n % 10)], rfl, by simp, ?_, ?_, ?_⟩
      · intro acc rest
        have hn : n % 10 = n := by omega
        rw [List.singleton_append, readDigits_cons hv, List.length_singleton, pow_one, hn]
      · simp only [List.length_singleton, pow_one]; omega
      · intro h10; omega
    · obtain ⟨L, e, hne, hread, hlt, _⟩ := ih (n / 10) (Nat.digitChar (n % 10) :: ds)
        (by omega)
      refine ⟨L ++ [Nat.digitChar (n % 10)], by rw [e]; simp, by simp, ?_, ?_, ?_⟩
      · intro acc rest
        rw [List.append_assoc, hread, List.singleton_append, readDigits_cons hv,
          List.length_append, List.length_singleton, pow_succ]
        congr 1
        have := Nat.div_add_mod n 10
        nlinarith [this]
      · rw [List.length_append, List.length_singleton, pow_succ]
        omega
      · intro _
        have : 1 ≤ L.length := List.length_pos.mpr hne
        rw [List.length_append, List.length_singleton]
        omega

theorem repr_read (n : Nat) :
    (Nat.repr n).toList ≠ []
      ∧ (∀ (acc : Nat) (rest : List Char), readDigits ((Nat.repr n).toList ++ rest) acc
          = readDigits rest (acc * 10 ^ (Nat.repr n).length + n))
      ∧ n < 10 ^ (Nat.repr n).length ∧ (10 ≤ n → 2 ≤ (Nat.repr n).length) := by
  obtain ⟨L, e, hne, hread, hlt, h2⟩ := toDigitsCore_read (n + 1) n [] (Nat.lt_succ_self n)
  have hL : (Nat.repr n).toList = L := by
    simp only [Nat.repr, Nat.toDigits, List.asString, String.toList]
    rw [e, List.append_nil]
  have hlen : (Nat.repr n).length = L.length := by
    rw [← hL]; rfl
  rw [hL, hlen]
  exact ⟨hne, hread, hlt, h2⟩

theorem utf8ByteSize_go_of_ascii : ∀ (l : List Char), (∀ c ∈ l, c.utf8Size = 1) →
    String.utf8ByteSize.go l = l.length := by
  intro l
  induction l with
  | nil => intro _; rfl
  | cons c cs ih =>
    intro h
    rw [String.utf8ByteSize.go, ih (fun x hx => h x (List.mem_cons_of_mem _ hx)),
      h c (List.mem_cons_self _ _), List.length_cons]

theorem utf8ByteSize_of_ascii (s : String) (h : ∀ c ∈ s.toList, c.utf8Size = 1) :
    s.utf8ByteSize = s.length := by
  cases s with
  | mk l => exact utf8ByteSize_go_of_ascii l h

/-! ## Whole minutes and seconds of a whole-second duration -/

theorem tmod_neg_left (a b : Int) : Int.tmod (-a) b = -Int.tmod a b := by
  rw [Int.tmod_def, Int.tmod_def, Int.neg_tdiv]
  ring

theorem Minutes_neg (d : Int) : Minutes (-d) = -Minutes d := by
  unfold Minutes f64ofInt
  rw [Int.neg_tdiv, tmod_neg_left]
  push_cast
  rw [f64round_neg, f64round_neg, neg_div, f64round_neg, ← neg_add, f64round_neg]

theorem Seconds_neg (d : Int) : Seconds (-d) = -Seconds d := by
  unfold Seconds f64ofInt
  rw [Int.neg_tdiv, tmod_neg_left]
  push_cast
  rw [f64round_neg, f64round_neg, neg_div, f64round_neg, ← neg_add, f64round_neg]

theorem f64toInt_neg (x : ℚ) : f64toInt (-x) = -f64toInt x := by
  unfold f64toInt
  rcases lt_trichotomy x 0 with h | h | h
  · rw [if_pos (by linarith), if_neg (by linarith), Int.floor_neg]
  · subst h; simp
  · rw [if_neg (by linarith), if_pos (by linarith), Int.ceil_neg]

theorem f64toInt_intCast (n : Int) : f64toInt (n : ℚ) = n := by
  unfold f64toInt
  split_ifs
  · exact Int.floor_intCast n
  · exact Int.ceil_intCast n

theorem Minutes_toInt_of_nonneg {d : Int} (h0 : 0 ≤ d) (h1 : d < 2 ^ 63) (hs : Second ∣ d) :
    f64toInt (Minutes d) = d / Minute := by
  obtain ⟨hlo, hhi⟩ := Minutes_bounds h0 h1 hs
  apply f64toInt_of_bounds hlo (by linarith)
  rw [Minute_eq]
  omega

theorem Seconds_of_whole {d : Int} (hi : IsInt64 d) (hs : Second ∣ d) :
    Seconds d = ((Int.tdiv d Second : Int) : ℚ) := by
  have hr : Int.tmod d Second = 0 := Int.tmod_eq_zero_of_dvd hs
  have hb : |Int.tdiv d Second| < 2 ^ 53 := by
    rw [Int.tdiv_eq_ediv_of_dvd hs, Second_eq]
    unfold IsInt64 at hi
    rw [abs_lt]
    constructor <;> omega
  unfold Seconds f64ofInt
  rw [hr, f64round_intCast _ hb]
  simp [f64round_zero, f64round_intCast _ hb]

/-- On a whole number of seconds the conversions `int(d.Minutes())` and `int(d.Seconds())`
are the truncated quotients of `d` by a minute and by a second. -/
theorem toInt_of_whole {d : Int} (hi : IsInt64 d) (hs : Second ∣ d) :
    f64toInt (Minutes d) = Int.tdiv d Minute ∧ f64toInt (Seconds d) = Int.tdiv d Second := by
  refine ⟨?_, by rw [Seconds_of_whole hi hs, f64toInt_intCast]⟩
  have hi' := hi
  unfold IsInt64 at hi'
  rw [Second_eq] at hs
  rcases le_total 0 d with h0 | h0
  · rw [Minutes_toInt_of_nonneg h0 hi'.2 (by rw [Second_eq]; exact hs),
      Int.tdiv_eq_ediv h0 (by decide)]
  · have hn := Minutes_toInt_of_nonneg (d := -d) (by omega) (by omega)
      (by rw [Second_eq]; omega)
    rw [Minutes_neg, f64toInt_neg] at hn
    have e : Int.tdiv d Minute = -((-d) / Minute) := by
      rw [← Int.tdiv_eq_ediv (by omega) (by decide), Int.neg_tdiv, neg_neg]
    rw [e, ← hn, neg_neg]

/-! ## Reading the rendered time back -/

theorem readInt_of_head {c : Char} (h : c ≠ '-') (cs : List Char) :
    readInt (c :: cs) = (readDigits (c :: cs) 0).map fun n => (n : Int) := by
  unfold readInt
  split
  · rename_i heq; exact absurd heq (by simp)
  · rename_i heq
    simp only [List.cons.injEq] at heq
    exact absurd heq.1 h
  · rename_i heq
    simp only [List.cons.injEq] at heq
    exact absurd heq.1 h
  · rfl

theorem readInt_minus {c : Char} (cs : List Char) :
    readInt ('-' :: c :: cs) = (readDigits (c :: cs) 0).map fun n => -(n : Int) := by
  unfold readInt
  split
  · rename_i heq; exact absurd heq (by simp)
  · rename_i heq
    simp at heq
  · rename_i heq
    simp only [List.cons.injEq, true_and] at heq
    rw [heq]
  · rename_i h1 h2 h3
    exact absurd rfl (h3 (c :: cs))

theorem readDigits_repr (n : Nat) : readDigits (Nat.repr n).toList 0 = some n := by
  have := (repr_read n).2.1 0 []
  rw [List.append_nil] at this
  rw [this]
  simp [readDigits]

theorem repr_head (n : Nat) : ∃ (c : Char) (cs : List Char),
    (Nat.repr n).toList = c :: cs ∧ c ≠ '-' := by
  obtain ⟨c, cs, h⟩ := List.exists_cons_of_ne_nil (repr_read n).1
  refine ⟨c, cs, h, ?_⟩
  exact repr_forall (fun x => x ≠ '-') (fun k hk => (digitChar_facts k hk).2.2.2.1) n c
    (by rw [h]; exact List.mem_cons_self _ _)

/-- The text written by `%02d` reads back as the number. -/
theorem readInt_sprintf02d (n : Int) : readInt (sprintf02d n).toList = some n := by
  unfold sprintf02d
  split_ifs with h1 h2
  · obtain ⟨c, cs, e, _⟩ := repr_head n.natAbs
    have hr := readDigits_repr n.natAbs
    rw [e] at hr
    simp only [String.toList, String.data_append]
    show readInt ('-' :: (Nat.repr n.natAbs).toList) = _
    rw [e, readInt_minus, hr]
    show some (-((n.natAbs : Nat) : Int)) = some n
    congr 1
    omega
  · simp only [String.toList, String.data_append]
    show readInt ('0' :: (Nat.repr n.toNat).toList) = _
    rw [readInt_of_head (by decide), readDigits_cons (v := 0) (by decide)]
    have := (repr_read n.toNat).2.1 (0 * 10 + 0) []
    rw [List.append_nil] at this
    rw [this]
    show some (((0 * 10 + 0) * 10 ^ (Nat.repr n.toNat).length + n.toNat : Nat) : Int) = some n
    congr 1
    simp only [zero_mul, zero_add]
    omega
  · obtain ⟨c, cs, e, hc⟩ := repr_head n.toNat
    have hr := readDigits_repr n.toNat
    rw [e] at hr ⊢
    rw [readInt_of_head hc, hr]
    show some ((n.toNat : Nat) : Int) = some n
    congr 1
    omega

theorem sprintf02d_no_colon (n : Int) : ∀ c ∈ (sprintf02d n).toList, c ≠ ':' := by
  have hrepr : ∀ k : Nat, ∀ c ∈ (Nat.repr k).toList, c ≠ ':' := fun k =>
    repr_forall (fun x => x ≠ ':') (fun j hj => (digitChar_facts j hj).2.2.1) k
  unfold sprintf02d
  split_ifs
  · intro c hc
    simp only [String.toList, String.data_append, List.mem_append] at hc
    rcases hc with hc | hc
    · have : c = '-' := by simpa using hc
      rw [this]; decide
    · exact hrepr _ c hc
  · intro c hc
    simp only [String.toList, String.data_append, List.mem_append] at hc
    rcases hc with hc | hc
    · have : c = '0' := by simpa using hc
      rw [this]; decide
    · exact hrepr _ c hc
  · exact hrepr _

theorem split_at_colon : ∀ (A B : List Char), (∀ c ∈ A, c ≠ ':') →
    (A ++ ':' :: B).takeWhile (fun c => c != ':') = A
      ∧ (A ++ ':' :: B).dropWhile (fun c => c != ':') = ':' :: B := by
  intro A
  induction A with
  | nil => intro B _; simp [List.takeWhile, List.dropWhile]
  | cons a A ih =>
    intro B h
    have ha : (a != ':') = true := by simpa using h a (List.mem_cons_self _ _)
    obtain ⟨i1, i2⟩ := ih B (fun c hc => h c (List.mem_cons_of_mem _ hc))
    rw [List.cons_append, List.takeWhile_cons, List.dropWhile_cons, if_pos ha, if_pos ha, i1, i2]
    exact ⟨rfl, rfl⟩

theorem readTime_of_parts (a b : Int) :
    readTime (sprintf02d a ++ ":" ++ sprintf02d b) = some (a, b) := by
  have hl : (sprintf02d a ++ ":" ++ sprintf02d b).toList
      = (sprintf02d a).toList ++ ':' :: (sprintf02d b).toList := by
    simp [String.toList, String.data_append]
  obtain ⟨e1, e2⟩ := split_at_colon (sprintf02d a).toList (sprintf02d b).toList
    (sprintf02d_no_colon a)
  unfold readTime
  rw [hl, e1, e2, readInt_sprintf02d a]
  simp only
  rw [readInt_sprintf02d b]

theorem repr_length_small (n : Nat) :
    (n < 10 → (Nat.repr n).length = 1) ∧ (10 ≤ n → 2 ≤ (Nat.repr n).length)
      ∧ (10 ≤ n → n < 100 → (Nat.repr n).length = 2) := by
  obtain ⟨hne, _, _, h2⟩ := repr_read n
  have h1 : 1 ≤ (Nat.repr n).length := List.length_pos.mpr hne
  refine ⟨fun h => ?_, h2, fun h h' => ?_⟩
  · have := Nat.repr_length n 1 (by decide) (by simpa using h)
    omega
  · have := Nat.repr_length n 2 (by decide) (by simpa using h')
    have := h2 h
    omega

theorem sprintf02d_length {n : Int} (h0 : 0 ≤ n) :
    2 ≤ (sprintf02d n).length ∧ (n ≤ 99 → (sprintf02d n).length = 2) := by
  obtain ⟨r1, r2, r3⟩ := repr_length_small n.toNat
  unfold sprintf02d
  rw [if_neg (not_lt.mpr h0)]
  split_ifs with h
  · have e := r1 (by omega)
    rw [String.length_append, e]
    exact ⟨by decide, fun _ => by decide⟩
  · exact ⟨r2 (by omega), fun h' => r3 (by omega) (by omega)⟩

theorem tdiv_of_nonpos {d b : Int} (h : d ≤ 0) (hb : 0 ≤ b) : Int.tdiv d b = -((-d) / b) := by
  rw [← Int.tdiv_eq_ediv (by omega) hb, Int.neg_tdiv, neg_neg]

theorem minutes_seconds_of_whole {d : Int} (hs : Second ∣ d) :
    (Int.tdiv d Minute * 60 + Int.tmod (Int.tdiv d Second) 60) * Second = d := by
  rw [Second_eq] at hs
  rcases le_total 0 d with h0 | h0
  · rw [Int.tdiv_eq_ediv h0 (by decide), Int.tdiv_eq_ediv h0 (by decide),
      Int.tmod_eq_emod (Int.ediv_nonneg h0 (by decide)) (by decide), Minute_eq, Second_eq]
    omega
  · have e : Int.tmod (-((-d) / Second)) 60 = -((-d) / Second % 60) := by
      rw [tmod_neg_left, Int.tmod_eq_emod (Int.ediv_nonneg (by omega) (by decide)) (by decide)]
    rw [tdiv_of_nonpos h0 (by decide), tdiv_of_nonpos h0 (by decide), e, Minute_eq, Second_eq]
    omega

/-- C15.  For every whole-second duration `d` (an `int64`), `formatTime(d)` is `MM`, a
colon and `SS`, where `MM` renders `d` divided by a minute and `SS` renders the seconds of
`d` modulo 60 (both truncated towards zero); reading `MM` and `SS` back as decimal
integers gives `(MM * 60 + SS)` seconds `== d`.  For `d ≥ 0`, `MM = d div 1 minute` is
written with at least two digits and `SS = (d div 1 second) mod 60` lies in `0..59` and
is written with exactly two. -/
theorem C15_formatTime_round_trip (d : Int) (hi : IsInt64 d) (hs : Second ∣ d) :
    formatTime d = sprintf02d (Int.tdiv d Minute) ++ ":"
        ++ sprintf02d (Int.tmod (Int.tdiv d Second) 60)
      ∧ readTime (formatTime d) = some (Int.tdiv d Minute, Int.tmod (Int.tdiv d Second) 60)
      ∧ (Int.tdiv d Minute * 60 + Int.tmod (Int.tdiv d Second) 60) * Second = d
      ∧ (0 ≤ d →
          Int.tdiv d Minute = d / Minute
            ∧ Int.tmod (Int.tdiv d Second) 60 = d / Second % 60
            ∧ 0 ≤ d / Second % 60 ∧ d / Second % 60 ≤ 59
            ∧ 2 ≤ (sprintf02d (d / Minute)).length
            ∧ (sprintf02d (d / Second % 60)).length = 2) := by
  obtain ⟨e1, e2⟩ := toInt_of_whole hi hs
  have hf : formatTime d = sprintf02d (Int.tdiv d Minute) ++ ":"
      ++ sprintf02d (Int.tmod (Int.tdiv d Second) 60) := by
    unfold formatTime
    rw [e1, e2]
  refine ⟨hf, by rw [hf]; exact readTime_of_parts _ _, minutes_seconds_of_whole hs, ?_⟩
  intro h0
  have hm : 0 ≤ d / Minute := Int.ediv_nonneg h0 (by decide)
  have hsec : 0 ≤ d / Second := Int.ediv_nonneg h0 (by decide)
  have hr0 : 0 ≤ d / Second % 60 := Int.emod_nonneg _ (by decide)
  have hr1 : d / Second % 60 ≤ 59 := by omega
  refine ⟨Int.tdiv_eq_ediv h0 (by decide), ?_, hr0, hr1, (sprintf02d_length hm).1,
    (sprintf02d_length hr0).2 (by omega)⟩
  rw [Int.tdiv_eq_ediv h0 (by decide), Int.tmod_eq_emod hsec (by decide)]

/-- C15, witness: 29:58. -/
theorem C15_formatTime_round_trip_witness :
    formatTime (1798 * Second) = sprintf02d (Int.tdiv (1798 * Second) Minute) ++ ":"
        ++ sprintf02d (Int.tmod (Int.tdiv (1798 * Second) Second) 60)
      ∧ readTime (formatTime (1798 * Second))
          = some (Int.tdiv (1798 * Second) Minute, Int.tmod (Int.tdiv (1798 * Second) Second) 60)
      ∧ (Int.tdiv (1798 * Second) Minute * 60
          + Int.tmod (Int.tdiv (1798 * Second) Second) 60) * Second = 1798 * Second
      ∧ Int.tdiv (1798 * Second) Minute = 1798 * Second / Minute
      ∧ Int.tmod (Int.tdiv (1798 * Second) Second) 60 = 1798 * Second / Second % 60
      ∧ 0 ≤ 1798 * Second / Second % 60 ∧ 1798 * Second / Second % 60 ≤ 59
      ∧ 2 ≤ (sprintf02d (1798 * Second / Minute)).length
      ∧ (sprintf02d (1798 * Second / Second % 60)).length = 2 :=
  ⟨(C15_formatTime_round_trip (1798 * Second) (by decide) (by decide)).1,
    (C15_formatTime_round_trip (1798 * Second) (by decide) (by decide)).2.1,
    (C15_formatTime_round_trip (1798 * Second) (by decide) (by decide)).2.2.1,
    (C15_formatTime_round_trip (1798 * Second) (by decide) (by decide)).2.2.2 (by decide)⟩

/-! ## The label row -/

theorem sprintfLeft5_of_nonneg {v : Int} (h0 : 0 ≤ v) :
    (sprintfLeft5 v).toList = (Nat.repr v.toNat).toList
        ++ List.replicate (5 - (Nat.repr v.toNat).length) ' '
      ∧ (sprintfLeft5 v).utf8ByteSize = (sprintfLeft5 v).length
      ∧ 5 ≤ (sprintfLeft5 v).length
      ∧ (v < 100000 → (sprintfLeft5 v).length = 5) := by
  have hD : sprintfD v = Nat.repr v.toNat := by
    unfold sprintfD
    rw [if_neg (not_lt.mpr h0)]
  have hl : (sprintfLeft5 v).toList = (Nat.repr v.toNat).toList
      ++ List.replicate (5 - (Nat.repr v.toNat).length) ' ' := by
    unfold sprintfLeft5
    rw [hD]
    simp [String.toList, String.data_append]
  have hlen : (sprintfLeft5 v).length
      = (Nat.repr v.toNat).length + (5 - (Nat.repr v.toNat).length) := by
    have : (sprintfLeft5 v).length = (sprintfLeft5 v).toList.length := rfl
    rw [this, hl, List.length_append, List.length_replicate]
    rfl
  refine ⟨hl, ?_, by rw [hlen]; omega, fun h => ?_⟩
  · apply utf8ByteSize_of_ascii
    intro c hc
    rw [hl, List.mem_append] at hc
    rcases hc with hc | hc
    · exact repr_forall (fun x => x.utf8Size = 1) (fun k hk => (digitChar_facts k hk).2.1) _ c hc
    · rw [(List.mem_replicate.mp hc).2]; decide
  · have := Nat.repr_length v.toNat 5 (by decide) (by omega)
    rw [hlen]
    omega

theorem labelsLoop_stop (minutes : Int) (fuel i : Nat) (hi : 50 ≤ i) :
    labelsLoop minutes fuel i = [] := by
  cases fuel with
  | zero => rfl
  | succ fuel =>
    rw [labelsLoop, if_neg (by rw [width_eq]; omega)]

theorem labelsLoop_label (minutes : Int) (fuel i : Nat) (hi : i < 50)
    (h5 : 5 ∣ minutes - 25 + i) (h0 : 0 ≤ minutes - 25 + i) :
    plainText (labelsLoop minutes (fuel + 1) i)
      = (sprintfLeft5 (minutes - 25 + i)).toList
        ++ plainText (labelsLoop minutes fuel
            ((i + (sprintfLeft5 (minutes - 25 + i)).length : Nat) : Int)) := by
  have hw : width / 2 = 25 := by decide
  obtain ⟨_, hb, h5len, _⟩ := sprintfLeft5_of_nonneg h0
  rw [labelsLoop, if_pos (by rw [width_eq]; omega), hw,
    if_pos ⟨Int.tmod_eq_zero_of_dvd h5, h0⟩, hb]
  have hc : (i : Int) + (((sprintfLeft5 (minutes - 25 + i)).length : Int) - 1) + 1
      = ((i + (sprintfLeft5 (minutes - 25 + i)).length : Nat) : Int) := by
    push_cast; ring
  rw [hc]
  rfl

theorem labelsLoop_blank (minutes : Int) (fuel i : Nat) (hi : i < 50)
    (h : ¬ (5 ∣ minutes - 25 + i ∧ 0 ≤ minutes - 25 + i)) :
    plainText (labelsLoop minutes (fuel + 1) i)
      = ' ' :: plainText (labelsLoop minutes fuel ((i + 1 : Nat) : Int)) := by
  have hw : width / 2 = 25 := by decide
  rw [labelsLoop, if_pos (by rw [width_eq]; omega), hw,
    if_neg (fun hc => h ⟨Int.dvd_of_tmod_eq_zero hc.1, hc.2⟩)]
  rfl

/-- The label loop from column `i` on, when no label of more than five characters is
followed by another label column: every label column carries its label, and every column
outside the five-character fields is blank. -/
theorem labels_spec (minutes : Int) (hm : minutes ≤ 99980) : ∀ (fuel i : Nat),
    50 ≤ i + fuel →
    (∀ j : Nat, i ≤ j → j < 50 → 5 ∣ minutes - 25 + j → 0 ≤ minutes - 25 + j →
        (sprintfLeft5 (minutes - 25 + j)).toList
          <+: (plainText (labelsLoop minutes fuel i)).drop (j - i))
      ∧ (∀ j : Nat, i ≤ j → j < 50 →
          (∀ k : Nat, i ≤ k → k ≤ j → j < k + 5 →
            ¬ (5 ∣ minutes - 25 + k ∧ 0 ≤ minutes - 25 + k)) →
          (plainText (labelsLoop minutes fuel i))[j - i]? = some ' ') := by
  intro fuel
  induction fuel with
  | zero =>
    intro i hi
    exact ⟨fun j h1 h2 => by omega, fun j h1 h2 => by omega⟩
  | succ fuel ih =>
    intro i hi
    by_cases h50 : 50 ≤ i
    · exact ⟨fun j h1 h2 => by omega, fun j h1 h2 => by omega⟩
    have hi50 : i < 50 := by omega
    by_cases hc : 5 ∣ minutes - 25 + i ∧ 0 ≤ minutes - 25 + i
    · obtain ⟨_, _, hlen5, hlenlt⟩ := sprintfLeft5_of_nonneg hc.2
      have hlist : (sprintfLeft5 (minutes - 25 + i)).toList.length
          = (sprintfLeft5 (minutes - 25 + i)).length := rfl
      rw [labelsLoop_label minutes fuel i hi50 hc.1 hc.2]
      have hL : (sprintfLeft5 (minutes - 25 + i)).length = 5 ∨ 45 ≤ i := by
        by_cases hv : minutes - 25 + i < 100000
        · left; exact hlenlt hv
        · right; omega
      obtain ⟨ihA, ihB⟩ := ih (i + (sprintfLeft5 (minutes - 25 + i)).length) (by omega)
      constructor
      · intro j h1 h2 h5 h0
        rcases Nat.eq_or_lt_of_le h1 with e | hlt
        · subst e
          rw [Nat.sub_self, List.drop_zero]
          exact List.prefix_append _ _
        · have hj5 : i + 5 ≤ j := by
            have := hc.1
            omega
          rcases hL with hL | hL
          · have hge : (sprintfLeft5 (minutes - 25 + i)).toList.length ≤ j - i := by
              rw [hlist, hL]; omega
            rw [List.drop_append_eq_append_drop, List.drop_eq_nil_of_le hge, List.nil_append,
              hlist]
            have := ihA j (by omega) h2 h5 h0
            have e : j - i - (sprintfLeft5 (minutes - 25 + i)).length
                = j - (i + (sprintfLeft5 (minutes - 25 + i)).length) := by omega
            rw [e]
            exact this
          · omega
      · intro j h1 h2 hk
        have hj5 : i + 5 ≤ j := by
          by_contra hcon
          exact hk i (le_refl i) h1 (by omega) hc
        rcases hL with hL | hL
        · have hge : (sprintfLeft5 (minutes - 25 + i)).toList.length ≤ j - i := by
            rw [hlist, hL]; omega
          rw [List.getElem?_append_right hge, hlist]
          have := ihB j (by omega) h2 (fun k k1 k2 k3 => hk k (by omega) k2 k3)
          have e : j - i - (sprintfLeft5 (minutes - 25 + i)).length
              = j - (i + (sprintfLeft5 (minutes - 25 + i)).length) := by omega
          rw [e]
          exact this
        · omega
    · rw [labelsLoop_blank minutes fuel i hi50 hc]
      obtain ⟨ihA, ihB⟩ := ih (i + 1) (by omega)
      constructor
      · intro j h1 h2 h5 h0
        rcases Nat.eq_or_lt_of_le h1 with e | hlt
        · subst e
          exact absurd ⟨h5, h0⟩ hc
        · have e : j - i = (j - (i + 1)) + 1 := by omega
          rw [e, List.drop_succ_cons]
          exact ihA j (by omega) h2 h5 h0
      · intro j h1 h2 hk
        rcases Nat.eq_or_lt_of_le h1 with e | hlt
        · subst e
          rw [Nat.sub_self, List.getElem?_cons_zero]
        · have e : j - i = (j - (i + 1)) + 1 := by omega
          rw [e, List.getElem?_cons_succ]
          exact ihB j (by omega) h2 (fun k k1 k2 k3 => hk k (by omega) k2 k3)

theorem labels_length (minutes : Int) (h5 : 5 ∣ minutes) (h1 : minutes ≤ 99975) :
    ∀ (fuel i : Nat), 50 ≤ i + fuel → i ≤ 50 →
      (plainText (labelsLoop minutes fuel i)).length = 50 - i := by
  intro fuel
  induction fuel with
  | zero =>
    intro i hi hle
    rw [labelsLoop_stop minutes 0 i (by omega)]
    simp only [plainText, List.length_nil]
    omega
  | succ fuel ih =>
    intro i hi hle
    by_cases h50 : 50 ≤ i
    · rw [labelsLoop_stop minutes _ i h50]
      simp only [plainText, List.length_nil]
      omega
    have hi50 : i < 50 := by omega
    by_cases hc : 5 ∣ minutes - 25 + i ∧ 0 ≤ minutes - 25 + i
    · obtain ⟨_, _, _, hlenlt⟩ := sprintfLeft5_of_nonneg hc.2
      have h45 : i ≤ 45 := by
        have := hc.1
        omega
      have hL : (sprintfLeft5 (minutes - 25 + i)).length = 5 := hlenlt (by omega)
      have hlist : (sprintfLeft5 (minutes - 25 + i)).toList.length
          = (sprintfLeft5 (minutes - 25 + i)).length := rfl
      rw [labelsLoop_label minutes fuel i hi50 hc.1 hc.2, List.length_append, hlist, hL,
        ih (i + 5) (by omega) (by omega)]
      omega
    · rw [labelsLoop_blank minutes fuel i hi50 hc, List.length_cons,
        ih (i + 1) (by omega) (by omega)]
      omega

theorem rulerLoop_text_length (minutes : Int) : ∀ (fuel : Nat) (i : Int),
    (plainText (rulerLoop minutes fuel i)).length ≤ fuel
      ∧ (i + fuel ≤ 50 → (plainText (rulerLoop minutes fuel i)).length = fuel) := by
  intro fuel
  induction fuel with
  | zero => intro i; exact ⟨Nat.le_refl 0, fun _ => rfl⟩
  | succ fuel ih =>
    intro i
    rw [rulerLoop]
    split_ifs with h1 h2
    · have e : (plainText (Piece.styled (columnStyle i) "|" :: rulerLoop minutes fuel (i + 1))).length
          = 1 + (plainText (rulerLoop minutes fuel (i + 1))).length := by
        simp [plainText, Piece.text, String.toList]
        omega
      rw [e]
      refine ⟨by have := (ih (i + 1)).1; omega, fun h => ?_⟩
      rw [(ih (i + 1)).2 (by push_cast at h ⊢; omega)]
      omega
    · have e : (plainText (Piece.styled (columnStyle i) "'" :: rulerLoop minutes fuel (i + 1))).length
          = 1 + (plainText (rulerLoop minutes fuel (i + 1))).length := by
        simp [plainText, Piece.text, String.toList]
        omega
      rw [e]
      refine ⟨by have := (ih (i + 1)).1; omega, fun h => ?_⟩
      rw [(ih (i + 1)).2 (by push_cast at h ⊢; omega)]
      omega
    · refine ⟨Nat.zero_le _, fun h => ?_⟩
      rw [width_eq] at h1
      push_cast at h
      omega

theorem renderTimeline_rows (m : model) :
    renderTimeline m = rulerRow (f64toInt (Minutes m.duration))
      ++ (Piece.plain "\n" :: (labelRow (f64toInt (Minutes m.duration))
          ++ (Piece.plain "\n" :: arrowRow))) := by
  simp [renderTimeline]

/-- C18, counterexample.  At a duration of 100000 minutes the label of column 25 is
`100000`, six characters long, and the loop skips column 30: its minute value 100005 is
a non-negative multiple of 5, but the label row reads `0` and blanks there. -/
theorem C18_counterexample :
    f64toInt (Minutes (idleAt (100000 * Minute)).m.duration) = 100000
      ∧ 5 ∣ (100000 : Int) - 25 + (30 : Nat)
      ∧ plainText (labelRow 100000)
          = "9997599980999859999099995100000    100010    100020".toList
      ∧ ¬ ((sprintfLeft5 (100000 - 25 + (30 : Nat))).toList
            <+: (plainText (labelRow
              (f64toInt (Minutes (idleAt (100000 * Minute)).m.duration)))).drop 30) := by
  have e : f64toInt (Minutes (idleAt (100000 * Minute)).m.duration) = 100000 := by
    show f64toInt (Minutes (100000 * Minute)) = 100000
    rw [(toInt_of_whole (d := 100000 * Minute) (by decide) (by decide)).1]
    decide
  rw [e]
  exact ⟨rfl, by decide, by decide, by decide⟩

/-- C18, amended.  For every state whose whole-minute count `m = int(duration.Minutes())`
is at most 99980, with styling treated as the identity: `renderTimeline` writes the label
row between the two newlines; at every column `i` in `0..49` whose minute value
`v = m - 25 + i` is a non-negative multiple of 5 the label row contains, starting exactly
at column `i`, the decimal of `v` followed by blanks up to five characters; and every
column `j` in `0..49` that lies in no such five-character field is a blank.  The two
parts hold for every column on their own: the first needs no blank column to exist, the
second no label. -/
theorem C18_label_row (m : model) (mins : Int) (hmins : f64toInt (Minutes m.duration) = mins)
    (hm : mins ≤ 99980) :
    renderTimeline m = rulerRow mins
        ++ (Piece.plain "\n" :: (labelRow mins ++ (Piece.plain "\n" :: arrowRow)))
      ∧ (∀ i : Nat, i < 50 → 5 ∣ mins - 25 + i → 0 ≤ mins - 25 + i →
          (sprintfLeft5 (mins - 25 + i)).toList <+: (plainText (labelRow mins)).drop i
            ∧ (sprintfLeft5 (mins - 25 + i)).toList
                = (Nat.repr (mins - 25 + i).toNat).toList
                  ++ List.replicate (5 - (Nat.repr (mins - 25 + i).toNat).length) ' ')
      ∧ (∀ j : Nat, j < 50 →
          (∀ k : Nat, k ≤ j → j < k + 5 → ¬ (5 ∣ mins - 25 + k ∧ 0 ≤ mins - 25 + k)) →
          (plainText (labelRow mins))[j]? = some ' ') := by
  obtain ⟨hA, hB⟩ := labels_spec mins hm 50 0 (by decide)
  refine ⟨by rw [← hmins]; exact renderTimeline_rows m, fun i hi h5 h0 => ?_,
    fun j hj hblank => ?_⟩
  · exact ⟨hA i (Nat.zero_le i) hi h5 h0, (sprintfLeft5_of_nonneg h0).1⟩
  · exact hB j (Nat.zero_le j) hj (fun k _ k2 k3 => hblank k k2 k3)

/-- C18, witness: at the start state, 25 minutes, column 25 carries the label of minute
25; at ten minutes column 15 carries the label of minute 0 and column 3 is blank. -/
theorem C18_label_row_witness :
    ((sprintfLeft5 (25 - 25 + (25 : Nat))).toList <+: (plainText (labelRow 25)).drop 25
        ∧ (sprintfLeft5 (25 - 25 + (25 : Nat))).toList
            = (Nat.repr ((25 : Int) - 25 + (25 : Nat)).toNat).toList
              ++ List.replicate
                  (5 - (Nat.repr ((25 : Int) - 25 + (25 : Nat)).toNat).length) ' ')
      ∧ renderTimeline (idleAt (10 * Minute)).m = rulerRow 10
          ++ (Piece.plain "\n" :: (labelRow 10 ++ (Piece.plain "\n" :: arrowRow)))
      ∧ ((sprintfLeft5 (10 - 25 + (15 : Nat))).toList <+: (plainText (labelRow 10)).drop 15
        ∧ (sprintfLeft5 (10 - 25 + (15 : Nat))).toList
            = (Nat.repr ((10 : Int) - 25 + (15 : Nat)).toNat).toList
              ++ List.replicate
                  (5 - (Nat.repr ((10 : Int) - 25 + (15 : Nat)).toNat).length) ' ')
      ∧ (plainText (labelRow 10))[3]? = some ' ' :=
  ⟨(C18_label_row initialModel 25
      (by
        show f64toInt (Minutes (25 * Minute)) = 25
        rw [(toInt_of_whole (d := 25 * Minute) (by decide) (by decide)).1]
        decide)
      (by decide)).2.1 25 (by decide) (by decide) (by decide),
    (C18_label_row (idleAt (10 * Minute)).m 10
      (by
        show f64toInt (Minutes (10 * Minute)) = 10
        rw [(toInt_of_whole (d := 10 * Minute) (by decide) (by decide)).1]
        decide)
      (by decide)).1,
    (C18_label_row (idleAt (10 * Minute)).m 10
      (by
        show f64toInt (Minutes (10 * Minute)) = 10
        rw [(toInt_of_whole (d := 10 * Minute) (by decide) (by decide)).1]
        decide)
      (by decide)).2.1 15 (by decide) (by decide) (by decide),
    (C18_label_row (idleAt (10 * Minute)).m 10
      (by
        show f64toInt (Minutes (10 * Minute)) = 10
        rw [(toInt_of_whole (d := 10 * Minute) (by decide) (by decide)).1]
        decide)
      (by decide)).2.2 3 (by decide) (by intro k hk1 hk2 h; omega)⟩

/-- C20.  For every duration whose whole-minute count `m = int(duration.Minutes())` is a
multiple of 5 with `0 ≤ m ≤ 99975`, the label row written by `renderTimeline` has exactly
50 characters with styling treated as the identity, the same width as the ruler row: a
label starts only at a column that is a multiple of 5 and at most 45, and is exactly five
characters wide. -/
theorem C20_label_row_width (m : model) (mins : Int)
    (hmins : f64toInt (Minutes m.duration) = mins) (h5 : 5 ∣ mins) (h0 : 0 ≤ mins)
    (h1 : mins ≤ 99975) (i : Nat) (hi : i < 50) (hl5 : 5 ∣ mins - 25 + i)
    (hl0 : 0 ≤ mins - 25 + i) :
    renderTimeline m = rulerRow mins
        ++ (Piece.plain "\n" :: (labelRow mins ++ (Piece.plain "\n" :: arrowRow)))
      ∧ (plainText (labelRow mins)).length = 50
      ∧ (plainText (rulerRow mins)).length = 50
      ∧ 5 ∣ i ∧ i ≤ 45
      ∧ (sprintfLeft5 (mins - 25 + i)).length = 5 := by
  have hlen := labels_length mins h5 h1 50 0 (by decide) (by decide)
  have hr := (rulerLoop_text_length mins 50 0).2 (by decide)
  have hi5 : 5 ∣ i := by omega
  refine ⟨by rw [← hmins]; exact renderTimeline_rows m, hlen, hr, hi5, by omega, ?_⟩
  exact (sprintfLeft5_of_nonneg hl0).2.2.2 (by omega)

/-- C20, witness: the start state, 25 minutes, and the label at column 45. -/
theorem C20_label_row_width_witness :
    renderTimeline initialModel = rulerRow 25
        ++ (Piece.plain "\n" :: (labelRow 25 ++ (Piece.plain "\n" :: arrowRow)))
      ∧ (plainText (labelRow 25)).length = 50
      ∧ (plainText (rulerRow 25)).length = 50
      ∧ 5 ∣ 45 ∧ 45 ≤ 45
      ∧ (sprintfLeft5 (25 - 25 + (45 : Nat))).length = 5 :=
  C20_label_row_width initialModel 25
    (by
      show f64toInt (Minutes (25 * Minute)) = 25
      rw [(toInt_of_whole (d := 25 * Minute) (by decide) (by decide)).1]
      decide)
    (by decide) (by decide) (by decide) 45 (by decide) (by decide) (by decide)

end Pomodoro
